import Mathlib

/-!
# Verification of the Ragzy conversation-cache core

Shallow embedding, in Lean 4, of the parts of the Ragzy backend that the
specification talks about:

* `app/services/redis_service.py` — the Distributed Cache wrapper
  (key hashing, TTL constants, message-list storage with pipelines),
* `app/services/chat_service.py` — the Hierarchy Index
  (`_store_chat_hierarchy_in_redis`, `_get_all_sub_chats`,
  `_remove_from_chat_hierarchy`, `_get_main_chat_id`), the Context
  Assembler (`get_conversation_context`) and the Deletion Coordinator
  (`delete_conversation`),
* `app/models/conversation.py` — the durable-store models
  (`ConversationModel`, `MessageModel`).

Modelling conventions:

* The durable store (Weaviate) is a pair of lists of records; the
  distributed cache (Redis) is an association list from key strings to
  TTL-carrying structured values (JSON (de)serialisation is modelled as
  the identity on the structured value).
* ISO-8601 timestamp strings, which the code compares lexicographically,
  are modelled as naturals with the numeric order (order-isomorphic for
  well-formed timestamps).
* Python exceptions do not arise in the pure model: external calls are
  total, so retry loops collapse to their first attempt.  The two
  unbounded recursions/loops (`_get_main_chat_id`'s parent walk,
  `delete_conversation`'s recursion) take a fuel argument; running out
  of fuel yields `none`, standing for a computation that has not
  finished.
-/

set_option maxRecDepth 2000

namespace Ragzy

/-! ## SHA-256 (the `hashlib.sha256(...).hexdigest()` used by `_hash_key`) -/

/-- `2^32`, the word modulus of SHA-256. -/
def w32 : Nat := 4294967296

/-- Right rotation of a 32-bit word. -/
def rotr (x n : Nat) : Nat := ((x >>> n) ||| (x <<< (32 - n))) % w32

/-- The 64 SHA-256 round constants (FIPS 180-4, given in decimal). -/
def sha256K : List Nat :=
  [1116352408, 1899447441, 3049323471, 3921009573, 961987163, 1508970993,
   2453635748, 2870763221, 3624381080, 310598401, 607225278, 1426881987,
   1925078388, 2162078206, 2614888103, 3248222580, 3835390401, 4022224774,
   264347078, 604807628, 770255983, 1249150122, 1555081692, 1996064986,
   2554220882, 2821834349, 2952996808, 3210313671, 3336571891, 3584528711,
   113926993, 338241895, 666307205, 773529912, 1294757372, 1396182291,
   1695183700, 1986661051, 2177026350, 2456956037, 2730485921, 2820302411,
   3259730800, 3345764771, 3516065817, 3600352804, 4094571909, 275423344,
   430227734, 506948616, 659060556, 883997877, 958139571, 1322822218,
   1537002063, 1747873779, 1955562222, 2024104815, 2227730452, 2361852424,
   2428436474, 2756734187, 3204031479, 3329325298]

/-- The initial SHA-256 hash state (in decimal). -/
def sha256H0 : List Nat :=
  [1779033703, 3144134277, 1013904242, 2773480762,
   1359893119, 2600822924, 528734635, 1541459225]

/-- Big-endian packing of bytes into 32-bit words. -/
def toWordsBE : List Nat → List Nat
  | b0 :: b1 :: b2 :: b3 :: rest => (((b0 * 256 + b1) * 256 + b2) * 256 + b3) :: toWordsBE rest
  | _ => []

/-- One step of the message-schedule extension: append word `w[n]` to a
schedule that already holds words `w[0..n-1]`. -/
def schedStep (ws : List Nat) : List Nat :=
  let n := ws.length
  let g : Nat → Nat := fun k => ws.getD (n - k) 0
  let s0 := (rotr (g 15) 7) ^^^ (rotr (g 15) 18) ^^^ ((g 15) >>> 3)
  let s1 := (rotr (g 2) 17) ^^^ (rotr (g 2) 19) ^^^ ((g 2) >>> 10)
  ws ++ [(g 16 + s0 + g 7 + s1) % w32]

/-- Extend the first 16 words of a chunk to the full 64-word schedule. -/
def schedule (first16 : List Nat) : List Nat :=
  (List.range 48).foldl (fun ws _ => schedStep ws) first16

/-- One SHA-256 compression round; the state is `[a,b,c,d,e,f,g,h]`. -/
def compStep (st : List Nat) (kw : Nat × Nat) : List Nat :=
  match st with
  | [a, b, c, d, e, f, g, h] =>
    let S1 := (rotr e 6) ^^^ (rotr e 11) ^^^ (rotr e 25)
    let ch := (e &&& f) ^^^ ((e ^^^ (w32 - 1)) &&& g)
    let temp1 := (h + S1 + ch + kw.1 + kw.2) % w32
    let S0 := (rotr a 2) ^^^ (rotr a 13) ^^^ (rotr a 22)
    let maj := (a &&& b) ^^^ (a &&& c) ^^^ (b &&& c)
    let temp2 := (S0 + maj) % w32
    [(temp1 + temp2) % w32, a, b, c, (d + temp1) % w32, e, f, g]
  | _ => st

/-- Compress one 64-byte chunk into the running hash state. -/
def processChunk (h : List Nat) (chunk : List Nat) : List Nat :=
  let ws := schedule (toWordsBE chunk)
  let st := (sha256K.zip ws).foldl compStep h
  h.zipWith (fun x y => (x + y) % w32) st

/-- Split a byte string into 64-byte chunks (structural recursion on a
fuel bounded by the length, so that the kernel can evaluate it). -/
def chunk64Go : Nat → List Nat → List (List Nat)
  | 0, _ => []
  | _ + 1, [] => []
  | n + 1, b :: rest => (b :: rest).take 64 :: chunk64Go n ((b :: rest).drop 64)

/-- Split a byte string into 64-byte chunks. -/
def chunk64 (l : List Nat) : List (List Nat) := chunk64Go l.length l

/-- SHA-256 padding: `0x80`, zeros, then the 64-bit big-endian bit length. -/
def sha256Pad (msg : List Nat) : List Nat :=
  let l := msg.length
  let zeros := (64 - ((l + 9) % 64)) % 64
  let bits := 8 * l
  msg ++ [0x80] ++ List.replicate zeros 0 ++
    [(bits >>> 56) % 256, (bits >>> 48) % 256, (bits >>> 40) % 256, (bits >>> 32) % 256,
     (bits >>> 24) % 256, (bits >>> 16) % 256, (bits >>> 8) % 256, bits % 256]

/-- The SHA-256 digest of a byte string, as eight 32-bit words. -/
def sha256Words (msg : List Nat) : List Nat :=
  (chunk64 (sha256Pad msg)).foldl processChunk sha256H0

/-- Hex digit characters. -/
def hexDigit (n : Nat) : Char :=
  if n < 10 then Char.ofNat (48 + n) else Char.ofNat (87 + n)

/-- A 32-bit word as 8 lowercase hex characters. -/
def wordToHex (w : Nat) : List Char :=
  [hexDigit ((w >>> 28) % 16), hexDigit ((w >>> 24) % 16), hexDigit ((w >>> 20) % 16),
   hexDigit ((w >>> 16) % 16), hexDigit ((w >>> 12) % 16), hexDigit ((w >>> 8) % 16),
   hexDigit ((w >>> 4) % 16), hexDigit (w % 16)]

/-- UTF-8 encoding of one character (Python's `str.encode()`). -/
def utf8EncodeChar (c : Char) : List Nat :=
  let n := c.toNat
  if n < 0x80 then [n]
  else if n < 0x800 then [0xC0 ||| (n >>> 6), 0x80 ||| (n &&& 0x3F)]
  else if n < 0x10000 then
    [0xE0 ||| (n >>> 12), 0x80 ||| ((n >>> 6) &&& 0x3F), 0x80 ||| (n &&& 0x3F)]
  else
    [0xF0 ||| (n >>> 18), 0x80 ||| ((n >>> 12) &&& 0x3F), 0x80 ||| ((n >>> 6) &&& 0x3F),
     0x80 ||| (n &&& 0x3F)]

/-- UTF-8 encoding of a string as a byte list. -/
def utf8Bytes (s : String) : List Nat := (s.data.map utf8EncodeChar).flatten

/-- The hex-digest character sequence of a byte string. -/
def sha256hexChars (msg : List Nat) : List Char :=
  ((sha256Words msg).map wordToHex).flatten

/-- `hashlib.sha256(key.encode()).hexdigest()`: the 64-character lowercase
hex digest of a string. -/
def sha256hex (s : String) : String :=
  ⟨sha256hexChars (utf8Bytes s)⟩

example : sha256hex "abc" = "ba7816bf8f01cfea414140de5dae2223b00361a396177a9cb410ff61f20015ad" := by
  decide

/-! ## Redis state

A Redis database is an association list from key strings to structured
values carrying an optional TTL (`none` = no expiry).  JSON
(de)serialisation is modelled as the identity on the structured value;
the bookkeeping fields the code adds to stored messages (`_stored_at`,
`_state`, `_version`) and to metadata (`_version`) are not modelled. -/

/-- A message payload as stored in a Redis conversation list
(`store_message`'s `enhanced_message`, minus bookkeeping fields; the
code defaults a missing timestamp to `utcnow`, the model requires one). -/
structure RMsg where
  role : String
  content : String
  timestamp : Nat
  deriving DecidableEq, Repr

/-- Conversation metadata as cached by `cache_conversation_metadata`
(the fields `get_conversation` reads back, plus the `_cached_at`
freshness stamp; pass-through timestamp fields are omitted). -/
structure MetaV where
  id : String
  user_id : String
  title : String
  cachedAt : Nat
  deriving DecidableEq, Repr

/-- The back-pointer stored under `hierarchy:sub:{id}`. -/
structure BackPtr where
  main_chat_id : String
  user_id : String
  deriving DecidableEq, Repr

/-- Structured Redis values. -/
inductive RVal where
  /-- `hierarchy:main:{id}` → JSON list of sub-chat ids -/
  | subList (subs : List String)
  /-- `hierarchy:sub:{id}` → JSON object with the main chat and owner -/
  | backPtr (b : BackPtr)
  /-- hashed `meta:{id}` → serialised conversation metadata -/
  | metaVal (m : MetaV)
  /-- hashed `conv:{user}:{id}` → Redis list of serialised messages -/
  | msgList (msgs : List RMsg)
  deriving DecidableEq, Repr

/-- One Redis key with its optional TTL (seconds) and value. -/
structure REntry where
  key : String
  ttl : Option Nat
  val : RVal
  deriving DecidableEq, Repr

/-- A Redis database; keys are unique in well-formed states. -/
abbrev Redis := List REntry

def redisGet (r : Redis) (k : String) : Option RVal :=
  (r.find? (fun e => e.key == k)).map (·.val)

def redisTTLOf (r : Redis) (k : String) : Option (Option Nat) :=
  (r.find? (fun e => e.key == k)).map (·.ttl)

def redisRemove (r : Redis) (k : String) : Redis :=
  r.filter (fun e => e.key != k)

/-- `SETEX key ttl value`. -/
def redisSetex (r : Redis) (k : String) (ttl : Nat) (v : RVal) : Redis :=
  ⟨k, some ttl, v⟩ :: redisRemove r k

/-- `LPUSH key msg`: prepend to the list at `k`, creating it (with no
TTL) when absent; pushing onto a non-list key is a Redis type error,
modelled as no state change with a failure flag. -/
def redisLpush (r : Redis) (k : String) (x : RMsg) : Redis × Bool :=
  match r.find? (fun e => e.key == k) with
  | some e =>
    match e.val with
    | .msgList l =>
      (r.map (fun e' => if e'.key == k then { e' with val := .msgList (x :: l) } else e'), true)
    | _ => (r, false)
  | none => (⟨k, none, .msgList [x]⟩ :: r, true)

/-- `LTRIM key start stop` (as used: `start = 0`): keep only the
elements with indices in `[start, stop]`. -/
def redisLtrim (r : Redis) (k : String) (start stop : Nat) : Redis × Bool :=
  match r.find? (fun e => e.key == k) with
  | some e =>
    match e.val with
    | .msgList l =>
      (r.map (fun e' =>
        if e'.key == k then { e' with val := .msgList ((l.drop start).take (stop + 1 - start)) }
        else e'), true)
    | _ => (r, false)
  | none => (r, true)

/-- `EXPIRE key secs`: set the TTL of an existing key. -/
def redisExpire (r : Redis) (k : String) (secs : Nat) : Redis × Bool :=
  match r.find? (fun e => e.key == k) with
  | some _ => (r.map (fun e => if e.key == k then { e with ttl := some secs } else e), true)
  | none => (r, false)

/-! ## `RedisServiceOptimized` (redis_service.py) -/

/-- `self.conversation_ttl = 60 * 60 * 24 * 7  # 7 days`. -/
def conversation_ttl : Nat := 60 * 60 * 24 * 7

/-- `self.metadata_ttl = 60 * 60 * 24 * 30  # 30 days for metadata`. -/
def metadata_ttl : Nat := 60 * 60 * 24 * 30

/-- `self.max_messages_per_conversation = 500`. -/
def max_messages_per_conversation : Nat := 500

/-- `self.pipeline_batch_size = 100`. -/
def pipeline_batch_size : Nat := 100

/-- `_hash_key`: `f"pgpt:{hashlib.sha256(key.encode()).hexdigest()[:12]}"`
(the hex digest cut to its first 12 characters). -/
def hash_key (key : String) : String :=
  "pgpt:" ++ ⟨(sha256hexChars (utf8Bytes key)).take 12⟩

/-- `get_conversation_key`: hashed `f"conv:{user_id}:{conversation_id}"`. -/
def get_conversation_key (user_id conversation_id : String) : String :=
  hash_key ("conv:" ++ user_id ++ ":" ++ conversation_id)

/-- `get_metadata_key`: hashed `f"meta:{conversation_id}"`. -/
def get_metadata_key (conversation_id : String) : String :=
  hash_key ("meta:" ++ conversation_id)

/-- The pipeline operations used by `store_message` / `store_messages_batch`. -/
inductive ROp where
  | lpush (key : String) (msg : RMsg)
  | ltrim (key : String) (start stop : Nat)
  | expire (key : String) (secs : Nat)
  deriving DecidableEq, Repr

def ROp.opName : ROp → String
  | .lpush .. => "lpush"
  | .ltrim .. => "ltrim"
  | .expire .. => "expire"

def applyROp (acc : Redis × Bool) (op : ROp) : Redis × Bool :=
  let (r, ok) := acc
  match op with
  | .lpush k m => let (r', ok') := redisLpush r k m; (r', ok && ok')
  | .ltrim k a b => let (r', ok') := redisLtrim r k a b; (r', ok && ok')
  | .expire k s => let (r', ok') := redisExpire r k s; (r', ok && ok')

/-- `pipeline_operation` groups the operations by operation name (a
Python dict keyed by name, so groups appear in first-occurrence order
and each group keeps its internal order) before executing them. -/
def groupOps (ops : List ROp) : List ROp :=
  ((ops.map ROp.opName).eraseDups).flatMap
    (fun n => ops.filter (fun op => op.opName == n))

/-- `pipeline_operation(operations)`: execute the grouped operations in
one (non-transactional) pipeline. -/
def pipeline_operation (r : Redis) (ops : List ROp) : Redis × Bool :=
  (groupOps ops).foldl applyROp (r, true)

/-- `store_message`: LPUSH the message, LTRIM the list to
`max_messages_per_conversation` entries and refresh the TTL to
`conversation_ttl`, in one pipeline. -/
def store_message (r : Redis) (user_id conversation_id : String) (message : RMsg) :
    Redis × Bool :=
  let key := get_conversation_key user_id conversation_id
  pipeline_operation r
    [.lpush key message,
     .ltrim key 0 (max_messages_per_conversation - 1),
     .expire key conversation_ttl]

/-- Generic chunking (`messages[i:i + batch]` loop), by structural
recursion on a fuel bounded by the length. -/
def chunksGo {α : Type} : Nat → Nat → List α → List (List α)
  | 0, _, _ => []
  | _ + 1, _, [] => []
  | n + 1, sz, x :: rest => ((x :: rest).take sz) :: chunksGo n sz ((x :: rest).drop sz)

def chunksOf {α : Type} (sz : Nat) (l : List α) : List (List α) :=
  chunksGo l.length sz l

/-- One batch of `store_messages_batch`: LPUSH every message of the
batch, then LTRIM and EXPIRE, in one pipeline. -/
def storeBatchChunk (key : String) (r : Redis) (batch : List RMsg) : Redis × Bool :=
  pipeline_operation r
    (batch.map (fun m => ROp.lpush key m) ++
     [.ltrim key 0 (max_messages_per_conversation - 1),
      .expire key conversation_ttl])

/-- `store_messages_batch`: empty input returns success immediately;
otherwise the messages are processed in `pipeline_batch_size` chunks
(aborting if a pipeline reports failure). -/
def store_messages_batch (r : Redis) (user_id conversation_id : String)
    (messages : List RMsg) : Redis × Bool :=
  if messages.isEmpty then (r, true)
  else
    let key := get_conversation_key user_id conversation_id
    (chunksOf pipeline_batch_size messages).foldl
      (fun acc batch => if acc.2 then storeBatchChunk key acc.1 batch else acc)
      (r, true)

/-- `cache_conversation_metadata`: SETEX the serialised metadata under
the hashed metadata key with `metadata_ttl`, stamping `_cached_at`
with the current time. -/
def cache_conversation_metadata (now : Nat) (r : Redis) (conversation_id : String)
    (m : MetaV) : Redis :=
  redisSetex r (get_metadata_key conversation_id) metadata_ttl
    (.metaVal { m with cachedAt := now })

/-- `get_cached_conversation_metadata`: read the hashed metadata key;
an entry whose `_cached_at` stamp is more than one day old is deleted
and reported as a miss. -/
def get_cached_conversation_metadata (now : Nat) (r : Redis) (conversation_id : String) :
    Option MetaV × Redis :=
  let key := get_metadata_key conversation_id
  match redisGet r key with
  | some (.metaVal m) =>
    if now - m.cachedAt > 86400 then (none, redisRemove r key)
    else (some m, r)
  | _ => (none, r)

/-! ## Durable store (Weaviate) and the models (conversation.py) -/

/-- An in-memory `ConversationModel` / a stored `Conversation` object.
`inherit_context` is the one metadata field the core reads
(`conversation.metadata.get('inherit_context', False)`); pass-through
timestamp fields are omitted. -/
structure Conv where
  id : String
  user_id : String
  title : String
  parent_id : Option String
  inherit_context : Bool
  deriving DecidableEq, Repr

/-- A `MessageModel` / a stored `Message` object. -/
structure Msg where
  id : String
  conversation_id : String
  role : String
  content : String
  timestamp : Nat
  deriving DecidableEq, Repr

/-- The durable store: object lists and a health flag. -/
structure Weav where
  convs : List Conv
  msgs : List Msg
  available : Bool
  deriving DecidableEq, Repr

/-- `ConversationModel.get_by_id` (via `weaviate_service.get_object`). -/
def Weav.getConv (w : Weav) (cid : String) : Option Conv :=
  w.convs.find? (fun c => c.id == cid)

/-- `ConversationModel.get_sub_conversations`: all conversations whose
`parent_id` equals the given id, in store order. -/
def Weav.subConvs (w : Weav) (pid : String) : List Conv :=
  w.convs.filter (fun c => c.parent_id == some pid)

/-- `MessageModel.get_by_conversation_id`, in store order. -/
def Weav.msgsOf (w : Weav) (cid : String) : List Msg :=
  w.msgs.filter (fun m => m.conversation_id == cid)

/-- `weaviate_service.delete_object('Conversation', id)`. -/
def Weav.removeConv (w : Weav) (cid : String) : Weav :=
  { w with convs := w.convs.filter (fun c => c.id != cid) }

/-- `weaviate_service.delete_object('Message', id)`. -/
def Weav.removeMsg (w : Weav) (mid : String) : Weav :=
  { w with msgs := w.msgs.filter (fun m => m.id != mid) }

/-! ## `ChatServiceOptimized` state (chat_service.py) -/

/-- The whole three-tier state seen by one `ChatServiceOptimized`
instance: the durable store, the distributed cache, the process-local
`_conversation_cache` (insertion-ordered, as a Python dict), and the
current time (for `_cached_at` freshness checks). -/
structure ChatState where
  weaviate : Weav
  redis : Redis
  localCache : List (String × Conv)
  now : Nat
  deriving DecidableEq, Repr

/-- `_get_cached_conversation`. -/
def get_cached_conversation (s : ChatState) (conversation_id : String) : Option Conv :=
  (s.localCache.find? (fun p => p.1 == conversation_id)).map (·.2)

/-- `_cache_conversation`: dict insert (an existing key keeps its
position, a new key is appended), then evict the oldest entry when the
size exceeds 100. -/
def cacheInsert (cache : List (String × Conv)) (c : Conv) : List (String × Conv) :=
  let cache' :=
    if (cache.find? (fun p => p.1 == c.id)).isSome then
      cache.map (fun p => if p.1 == c.id then (p.1, c) else p)
    else cache ++ [(c.id, c)]
  if cache'.length > 100 then cache'.drop 1 else cache'

/-- `get_conversation`: local cache, then Redis metadata (the
reconstructed model has no `parent_id` and no metadata), then the
durable store (re-caching into both faster tiers). -/
def get_conversation (s : ChatState) (conversation_id : String) : Option Conv × ChatState :=
  match get_cached_conversation s conversation_id with
  | some c => (some c, s)
  | none =>
    match get_cached_conversation_metadata s.now s.redis conversation_id with
    | (some m, r') =>
      let c : Conv :=
        { id := m.id, user_id := m.user_id, title := m.title,
          parent_id := none, inherit_context := false }
      (some c, { s with redis := r', localCache := cacheInsert s.localCache c })
    | (none, r') =>
      match s.weaviate.getConv conversation_id with
      | some c =>
        let m : MetaV := { id := c.id, user_id := c.user_id, title := c.title, cachedAt := 0 }
        (some c,
         { s with
            redis := cache_conversation_metadata s.now r' conversation_id m,
            localCache := cacheInsert s.localCache c })
      | none => (none, { s with redis := r' })

/-- The `while current_conv.parent_id:` walk of `_get_main_chat_id`,
with fuel; `none` is a walk that has not finished (the code has no
depth bound, so on cyclic data the loop never exits). -/
def mainChatLoop : Nat → ChatState → Conv → Option (String × ChatState)
  | 0, _, _ => none
  | fuel + 1, s, cur =>
    match cur.parent_id with
    | none => some (cur.id, s)
    | some pid =>
      match get_conversation s pid with
      | (none, s') => some (cur.id, s')
      | (some pc, s') => mainChatLoop fuel s' pc

/-- `_get_main_chat_id`: the id of the root ancestor, walking parent
links; an unknown conversation resolves to itself. -/
def get_main_chat_id (fuel : Nat) (s : ChatState) (conversation_id : String) :
    Option (String × ChatState) :=
  match get_conversation s conversation_id with
  | (none, s') => some (conversation_id, s')
  | (some c, s') => mainChatLoop fuel s' c

/-! ## Hierarchy Index (chat_service.py) -/

/-- The `f"hierarchy:main:{main_chat_id}"` key. -/
def hierarchyMainKey (main_chat_id : String) : String :=
  "hierarchy:main:" ++ main_chat_id

/-- The `f"hierarchy:sub:{sub_chat_id}"` key. -/
def hierarchySubKey (sub_chat_id : String) : String :=
  "hierarchy:sub:" ++ sub_chat_id

/-- `_store_chat_hierarchy_in_redis`: append the sub chat to the main
chat's edge list (only when absent — an existing edge leaves the list
key untouched), then (re)write the sub chat's back-pointer; both writes
use `conversation_ttl`.  A non-list value under the main key fails JSON
decoding, which the code catches and reports as `False` with no write. -/
def store_chat_hierarchy_in_redis (s : ChatState)
    (main_chat_id sub_chat_id user_id : String) : ChatState × Bool :=
  let main_chat_key := hierarchyMainKey main_chat_id
  let write : Option (List String) → ChatState := fun upd =>
    let r1 :=
      match upd with
      | some new_subs => redisSetex s.redis main_chat_key conversation_ttl (.subList new_subs)
      | none => s.redis
    let r2 := redisSetex r1 (hierarchySubKey sub_chat_id) conversation_ttl
      (.backPtr ⟨main_chat_id, user_id⟩)
    { s with redis := r2 }
  match redisGet s.redis main_chat_key with
  | some (.subList sub_chats) =>
    if sub_chat_id ∈ sub_chats then (write none, true)
    else (write (some (sub_chats ++ [sub_chat_id])), true)
  | none => (write (some [sub_chat_id]), true)
  | some _ => (s, false)

/-- `_get_all_sub_chats`: the cached edge list when present, else the
durable store's sub-conversations of the id, re-cached (only when
non-empty) with `conversation_ttl`. -/
def get_all_sub_chats (s : ChatState) (main_chat_id : String) : List String × ChatState :=
  let main_chat_key := hierarchyMainKey main_chat_id
  match redisGet s.redis main_chat_key with
  | some (.subList sub_chats) => (sub_chats, s)
  | some _ => ([], s)
  | none =>
    let sub_chat_ids := (s.weaviate.subConvs main_chat_id).map (·.id)
    if sub_chat_ids.isEmpty then (sub_chat_ids, s)
    else
      (sub_chat_ids,
       { s with redis := redisSetex s.redis main_chat_key conversation_ttl (.subList sub_chat_ids) })

/-- `_remove_from_chat_hierarchy`: remove the sub chat from the main
chat's edge list; when the list becomes empty the key is deleted
instead of being rewritten.  An absent key, a non-list value, or a list
not containing the sub chat leaves the state unchanged (result `False`). -/
def remove_from_chat_hierarchy (s : ChatState)
    (main_chat_id sub_chat_id _user_id : String) : ChatState × Bool :=
  let main_chat_key := hierarchyMainKey main_chat_id
  match redisGet s.redis main_chat_key with
  | some (.subList sub_chats) =>
    if sub_chat_id ∈ sub_chats then
      let sub_chats' := sub_chats.erase sub_chat_id
      if sub_chats'.isEmpty then
        ({ s with redis := redisRemove s.redis main_chat_key }, true)
      else
        ({ s with redis := redisSetex s.redis main_chat_key conversation_ttl (.subList sub_chats') },
         true)
    else (s, false)
  | _ => (s, false)

/-! ## Context Assembler (`get_conversation_context`) -/

/-- A candidate context message (role, content and the timestamp the
sort key reads; the per-source marker fields are dropped by the final
strip and are not modelled). -/
structure CMsg where
  role : String
  content : String
  timestamp : Nat
  deriving DecidableEq, Repr

/-- The `{role, content}` entries `get_conversation_context` returns. -/
structure CtxOut where
  role : String
  content : String
  deriving DecidableEq, Repr

def msgToC (m : Msg) : CMsg := ⟨m.role, m.content, m.timestamp⟩

def ctxStrip (m : CMsg) : CtxOut := ⟨m.role, m.content⟩

/-- Python's tail slice `l[-k:]`: the last `k` elements — except that
`k = 0` yields the whole list, since `l[-0:]` is `l[0:]`. -/
def pyTail {α : Type} (k : Nat) (l : List α) : List α :=
  if k = 0 then l else l.drop (l.length - k)

/-- Stable insertion into a timestamp-sorted list: the new element goes
after every element with a strictly smaller timestamp and before any
element with an equal or larger one, so that (with the fold-from-the-
right below) source order is preserved among equal timestamps. -/
def insertTS (m : CMsg) : List CMsg → List CMsg
  | [] => [m]
  | x :: xs => if x.timestamp < m.timestamp then x :: insertTS m xs else m :: x :: xs

/-- `messages.sort(key=lambda x: x.get('timestamp', ''))`: Python's
`list.sort` is a stable sort on the timestamp key, modelled as a stable
insertion sort. -/
def sortByTimestamp (l : List CMsg) : List CMsg := l.foldr insertTS []

/-- The candidate-gathering phase of `get_conversation_context`, up to
the sort: returns the unsorted candidate list (in source-insertion
order: grandparent context, then parent context, then the target's own
messages, then sub-chat/sibling extracts), the computed
`is_sub_chat and should_inherit_context` flag, and the state after the
embedded `get_conversation` calls. -/
def contextPipeline (s : ChatState) (conversation_id : String) (limit : Nat)
    (include_all_sub_chats : Bool) : List CMsg × Bool × ChatState :=
  match get_conversation s conversation_id with
  | (none, s1) => ([], false, s1)
  | (some conversation, s1) =>
    let is_sub_chat := conversation.parent_id.isSome
    let should_inherit_context := is_sub_chat && conversation.inherit_context
    let pid := conversation.parent_id.getD ""
    let (ancestor_context, s2) :=
      if should_inherit_context then
        let parent_context := pyTail limit ((s1.weaviate.msgsOf pid).map msgToC)
        match get_conversation s1 pid with
        | (some parent_conversation, s1') =>
          match parent_conversation.parent_id with
          | some gpid =>
            let grandparent_context := pyTail (limit / 2) ((s1'.weaviate.msgsOf gpid).map msgToC)
            (grandparent_context ++ parent_context, s1')
          | none => (parent_context, s1')
        | (none, s1') => (parent_context, s1')
      else ([], s1)
    let current_limit := if should_inherit_context then limit / 4 else limit
    let current_context := pyTail current_limit ((s2.weaviate.msgsOf conversation_id).map msgToC)
    let extra_context :=
      if include_all_sub_chats then
        if !is_sub_chat then
          ((s2.weaviate.subConvs conversation_id).filter (fun c => c.id != conversation_id)).flatMap
            (fun sub_conv => pyTail 5 ((s2.weaviate.msgsOf sub_conv.id).map msgToC))
        else if should_inherit_context then
          ((s2.weaviate.subConvs pid).filter (fun c => c.id != conversation_id)).flatMap
            (fun sibling_conv => pyTail 3 ((s2.weaviate.msgsOf sibling_conv.id).map msgToC))
        else []
      else []
    (ancestor_context ++ current_context ++ extra_context, should_inherit_context, s2)

/-- The final truncation of `get_conversation_context`: sub-chats with
context inheritance may keep up to `2 * limit` entries, everything else
is cut to the most recent `limit` — via Python tail slices, so a zero
slice width keeps the whole list. -/
def contextTruncate {α : Type} (inherited : Bool) (limit : Nat) (l : List α) : List α :=
  if inherited then
    let max_context := min l.length (limit * 2)
    if max_context < l.length then pyTail max_context l else l
  else
    if l.length > limit then pyTail limit l else l

/-- `get_conversation_context`: gather candidates, sort them (stably)
by timestamp, strip to `{role, content}`, then truncate. -/
def get_conversation_context (s : ChatState) (conversation_id : String) (limit : Nat)
    (include_all_sub_chats : Bool) : List CtxOut × ChatState :=
  let (candidates, inherited, s') := contextPipeline s conversation_id limit include_all_sub_chats
  let context_messages := (sortByTimestamp candidates).map ctxStrip
  (contextTruncate inherited limit context_messages, s')

/-- The same pipeline, stopped before the strip: the sorted, truncated
candidate list still carrying timestamps (what the returned entries are
the `{role, content}` projection of). -/
def get_conversation_context_full (s : ChatState) (conversation_id : String) (limit : Nat)
    (include_all_sub_chats : Bool) : List CMsg :=
  let (candidates, inherited, _) := contextPipeline s conversation_id limit include_all_sub_chats
  contextTruncate inherited limit (sortByTimestamp candidates)

/-! ## Deletion Coordinator (`delete_conversation`, `ConversationModel.delete`)

Durable-store record deletions are recorded in an event trace so that
the order of deletions (each descendant before its main chat) can be
stated.  The recursive walks take fuel; `none` models a run that has
not finished. -/

/-- A durable-store record deletion performed during a delete run. -/
inductive Event where
  | delMsgRec (id : String)
  | delConvRec (id : String)
  deriving DecidableEq, Repr

/-- Python's `needle in hay` on strings. -/
def containsStr (hay needle : String) : Bool :=
  (List.range (hay.data.length + 1)).any (fun k => needle.data.isPrefixOf (hay.data.drop k))

/-- Drop every Redis key matching the predicate (the `keys("*")` scan +
substring filter + `delete(*keys)` idiom). -/
def purgeKeys (r : Redis) (p : String → Bool) : Redis :=
  r.filter (fun e => !(p e.key))

/-- The relevance filter of the delete steps: the key name contains the
conversation id, the main chat id, or (when known) the owner's user id
as a substring. -/
def relatedKey (conversation_id : String) (main_chat_id : Option String)
    (user_id : Option String) (k : String) : Bool :=
  containsStr k conversation_id ||
  (match main_chat_id with | some m => containsStr k m | none => false) ||
  (match user_id with | some u => containsStr k u | none => false)

/-- `ConversationModel.delete`: delete all of the conversation's
messages, recursively delete its sub-conversations (by `parent_id`
query), then delete the conversation record itself.  Retry loops
collapse to their single successful attempt; the final verification
re-read finds the record gone and adds nothing. -/
def modelDelete : Nat → Weav → String → Option (Weav × List Event)
  | 0, _, _ => none
  | fuel + 1, w, cid =>
    let msgs := w.msgsOf cid
    let w1 := msgs.foldl (fun acc m => acc.removeMsg m.id) w
    let ev1 := msgs.map (fun m => Event.delMsgRec m.id)
    let subs := w1.subConvs cid
    match subs.foldlM (fun (acc : Weav × List Event) sc =>
        (modelDelete fuel acc.1 sc.id).map (fun p => (p.1, acc.2 ++ p.2))) (w1, ev1) with
    | none => none
    | some (w2, ev2) => some (w2.removeConv cid, ev2 ++ [Event.delConvRec cid])

/-! STEPs 1–9 of `delete_conversation`'s main path, after the main
chat id and registered sub-chat list have been resolved.  The recursive
call (STEP 4) and `ConversationModel.delete` (STEP 6) are passed in as
functions so the steps can be specified independently of the recursion:

* STEP 1: force delete all of the target's message records;
* STEP 2: delete every Redis key whose name contains the conversation
  id, the main chat id or the user id as a substring;
* STEP 3: pattern-based cleanup — every pattern's hits are filtered by
  the same relevance test, so this pass re-deletes a subset of STEP 2's
  keys (modelled as a re-application of the same purge);
* STEP 4: recursively delete every registered sub chat (a failed
  recursive delete falls back to a direct record deletion);
* STEP 5: clear the whole local conversation cache;
* STEP 6/7: delete the target's own durable record via
  `ConversationModel.delete` (absent target counts as deleted);
* STEP 8: verification re-read of the target — a read that re-populates
  the caches when metadata for the id still exists — plus direct
  durable-store checks that force-delete any remaining record/messages;
* STEP 9: final purge of Redis keys containing the user id. -/
/-- STEP 4: recursively delete every registered sub chat, accumulating
events; a failed recursive delete falls back to a direct record
deletion of that sub chat. -/
def deleteStep4 (rec : ChatState → String → Option (Bool × ChatState × List Event))
    (sub_chat_ids : List String) (acc0 : ChatState × List Event) :
    Option (ChatState × List Event) :=
  sub_chat_ids.foldlM (fun (acc : ChatState × List Event) sub_chat_id =>
    (rec acc.1 sub_chat_id).map (fun res =>
      let (ok, s', ev) := res
      if ok then (s', acc.2 ++ ev)
      else ({ s' with weaviate := s'.weaviate.removeConv sub_chat_id },
            acc.2 ++ ev ++ [Event.delConvRec sub_chat_id]))) acc0

/-- STEP 6/7: delete the target's own durable record via
`ConversationModel.delete`; an absent target counts as deleted. -/
def deleteStep67 (mdel : Weav → String → Option (Weav × List Event))
    (convOpt : Option Conv) (s6 : ChatState) (ev4 : List Event) :
    Option (ChatState × List Event) :=
  match convOpt with
  | some conversation =>
    (mdel s6.weaviate conversation.id).map
      (fun (p : Weav × List Event) => (({ s6 with weaviate := p.1 } : ChatState), ev4 ++ p.2))
  | none => some (s6, ev4)

/-- STEP 8/9: the verification re-read of the target (a read that
re-populates the caches when metadata for the id still exists),
force-deletion of any remaining durable record/messages, and the final
purge of Redis keys containing the user id.  Always reports success. -/
def deleteStep89 (conversation_id : String) (user_id : Option String)
    (s7 : ChatState) (ev6 : List Event) : Bool × ChatState × List Event :=
  let (verifOpt, s8) := get_conversation s7 conversation_id
  let s9 : ChatState :=
    match s8.weaviate.getConv conversation_id with
    | some _ => { s8 with weaviate := s8.weaviate.removeConv conversation_id }
    | none => s8
  let ev8 :=
    match s8.weaviate.getConv conversation_id with
    | some _ => [Event.delConvRec conversation_id]
    | none => []
  let remaining := s9.weaviate.msgsOf conversation_id
  let w10 := remaining.foldl (fun acc m => acc.removeMsg m.id) s9.weaviate
  let ev8' := ev8 ++ remaining.map (fun m => Event.delMsgRec m.id)
  let _ := verifOpt
  let r10 :=
    match user_id with
    | some u => purgeKeys s9.redis (fun k => containsStr k u)
    | none => s9.redis
  (true, { s9 with weaviate := w10, redis := r10 }, ev6 ++ ev8')

def deleteAfterResolve (rec : ChatState → String → Option (Bool × ChatState × List Event))
    (mdel : Weav → String → Option (Weav × List Event))
    (conversation_id : String) (convOpt : Option Conv) (user_id : Option String)
    (main_chat_id : String) (sub_chat_ids : List String) (s3 : ChatState) :
    Option (Bool × ChatState × List Event) :=
  -- STEP 1
  let msgs := s3.weaviate.msgsOf conversation_id
  let w4 := msgs.foldl (fun acc m => acc.removeMsg m.id) s3.weaviate
  let ev1 := msgs.map (fun m => Event.delMsgRec m.id)
  -- STEP 2
  let r4 := purgeKeys s3.redis (relatedKey conversation_id (some main_chat_id) user_id)
  -- STEP 3
  let r5 := purgeKeys r4 (relatedKey conversation_id (some main_chat_id) user_id)
  let s4 : ChatState := { s3 with weaviate := w4, redis := r5 }
  match deleteStep4 rec sub_chat_ids (s4, ev1) with
  | none => none
  | some (s5, ev4) =>
    -- STEP 5
    match deleteStep67 mdel convOpt { s5 with localCache := [] } ev4 with
    | none => none
    | some (s7, ev6) =>
      some (deleteStep89 conversation_id user_id s7 ev6)

/-- `delete_conversation` (chat_service.py lines 1087–1503).

* Degraded path (durable store unhealthy): purge every Redis key whose
  name contains the conversation id or the owner's user id, clear the
  whole local cache, return `True`.
* Main path: resolve the main chat id and (when the target is its own
  main chat) the registered sub-chat list, then run STEPs 1–9
  (`deleteAfterResolve`), which always return `True`. -/
def delete_conversation : Nat → ChatState → String → Option (Bool × ChatState × List Event)
  | 0, _, _ => none
  | fuel + 1, s, conversation_id =>
    let (convOpt, s1) := get_conversation s conversation_id
    let user_id := convOpt.map (·.user_id)
    if !s1.weaviate.available then
      -- Redis-only cleanup (Weaviate unavailable)
      let r2 := purgeKeys s1.redis (relatedKey conversation_id none user_id)
      some (true, { s1 with redis := r2, localCache := [] }, [])
    else
      match get_main_chat_id fuel s1 conversation_id with
      | none => none
      | some (main_chat_id, s2) =>
        let (sub_chat_ids, s3) :=
          if conversation_id == main_chat_id then get_all_sub_chats s2 conversation_id
          else ([], s2)
        deleteAfterResolve (delete_conversation fuel) (modelDelete fuel)
          conversation_id convOpt user_id main_chat_id sub_chat_ids s3

/-! # Shared lemmas about the Redis association list -/

theorem findEntry_filter_ne (r : Redis) (k k' : String) (h : k' ≠ k) :
    (r.filter (fun e => e.key != k)).find? (fun e => e.key == k') =
      r.find? (fun e => e.key == k') := by
  induction r with
  | nil => rfl
  | cons e r ih =>
    by_cases he : e.key = k'
    · have h1 : (e.key != k) = true := by simp [bne, he, h]
      have h2 : (e.key == k') = true := by simp [he]
      simp [List.filter_cons, h1, List.find?_cons, h2]
    · have h2 : (e.key == k') = false := by simp [he]
      by_cases hk : e.key = k
      · have h3 : (k == k') = false := by simp; exact fun he2 => h he2.symm
        simp [List.filter_cons, hk, List.find?_cons, h2, h3, ih]
      · have h1 : (e.key != k) = true := by simp [bne, hk]
        simp [List.filter_cons, h1, List.find?_cons, h2, ih]

theorem findEntry_filter_self (r : Redis) (k : String) :
    (r.filter (fun e => e.key != k)).find? (fun e => e.key == k) = none := by
  apply List.find?_eq_none.2
  intro e he
  have := (List.mem_filter.1 he).2
  simpa [bne] using this

theorem redisGet_setex_self (r : Redis) (k : String) (t : Nat) (v : RVal) :
    redisGet (redisSetex r k t v) k = some v := by
  simp [redisGet, redisSetex, List.find?_cons]

theorem redisTTLOf_setex_self (r : Redis) (k : String) (t : Nat) (v : RVal) :
    redisTTLOf (redisSetex r k t v) k = some (some t) := by
  simp [redisTTLOf, redisSetex, List.find?_cons]

theorem redisGet_setex_ne (r : Redis) (k k' : String) (t : Nat) (v : RVal) (h : k' ≠ k) :
    redisGet (redisSetex r k t v) k' = redisGet r k' := by
  have hk : (k == k') = false := by simp; exact fun he => h he.symm
  simp [redisGet, redisSetex, redisRemove, List.find?_cons, hk, findEntry_filter_ne r k k' h]

theorem redisTTLOf_setex_ne (r : Redis) (k k' : String) (t : Nat) (v : RVal) (h : k' ≠ k) :
    redisTTLOf (redisSetex r k t v) k' = redisTTLOf r k' := by
  have hk : (k == k') = false := by simp; exact fun he => h he.symm
  simp [redisTTLOf, redisSetex, redisRemove, List.find?_cons, hk, findEntry_filter_ne r k k' h]

theorem redisGet_remove_self (r : Redis) (k : String) :
    redisGet (redisRemove r k) k = none := by
  simp [redisGet, redisRemove, findEntry_filter_self]

theorem redisGet_remove_ne (r : Redis) (k k' : String) (h : k' ≠ k) :
    redisGet (redisRemove r k) k' = redisGet r k' := by
  simp [redisGet, redisRemove, findEntry_filter_ne r k k' h]

/-! # Key-name disjointness -/

theorem hierMainKey_ne_hierSubKey (a b : String) :
    hierarchyMainKey a ≠ hierarchySubKey b := by
  intro h
  have hd := congrArg (fun s => s.data.take 11) h
  simp only [hierarchyMainKey, hierarchySubKey, String.data_append] at hd
  rw [List.take_append_of_le_length (by decide),
    List.take_append_of_le_length (by decide)] at hd
  exact absurd hd (by decide)

theorem hash_key_ne_hierMainKey (k a : String) :
    hash_key k ≠ hierarchyMainKey a := by
  intro h
  have hd := congrArg (fun s => s.data.take 1) h
  simp only [hash_key, hierarchyMainKey, String.data_append] at hd
  rw [List.take_append_of_le_length (by decide),
    List.take_append_of_le_length (by decide)] at hd
  exact absurd hd (by decide)

/-! # SHA-256 digest length -/

theorem compStep_length (st : List Nat) (h : st.length = 8) (kw : Nat × Nat) :
    (compStep st kw).length = 8 := by
  rcases st with _ | ⟨a, _ | ⟨b, _ | ⟨c, _ | ⟨d, _ | ⟨e, _ | ⟨f, _ | ⟨g, _ | ⟨hh, _ | ⟨i, t⟩⟩⟩⟩⟩⟩⟩⟩⟩ <;>
    simp_all [compStep]

theorem foldl_compStep_length (l : List (Nat × Nat)) (st : List Nat) (h : st.length = 8) :
    (l.foldl compStep st).length = 8 := by
  induction l generalizing st with
  | nil => simpa
  | cons x xs ih => exact ih _ (compStep_length _ h x)

theorem processChunk_length (h : List Nat) (hl : h.length = 8) (chunk : List Nat) :
    (processChunk h chunk).length = 8 := by
  simp [processChunk, hl, foldl_compStep_length _ _ hl]

theorem sha256Words_length (msg : List Nat) : (sha256Words msg).length = 8 := by
  have key : ∀ (cs : List (List Nat)) (h : List Nat), h.length = 8 →
      (cs.foldl processChunk h).length = 8 := by
    intro cs
    induction cs with
    | nil => intro h hh; simpa
    | cons c cs ih => intro h hh; exact ih _ (processChunk_length _ hh _)
  exact key _ _ (by decide)

theorem sha256hexChars_length (msg : List Nat) : (sha256hexChars msg).length = 64 := by
  have h8 := sha256Words_length msg
  have key : ∀ ws : List Nat, ((ws.map wordToHex).flatten).length = 8 * ws.length := by
    intro ws
    induction ws with
    | nil => simp
    | cons w ws ih => simp [ih, wordToHex]; ring
  rw [sha256hexChars, key, h8]

/-! # C6 — Distributed Cache key derivation -/

/-- C6 (counterexample): the claim says the structured key name is
hashed and truncated to at least 80 bits; for the structured name
`tier:resource:id` the derived key keeps only 12 hex characters of the
digest after the `pgpt:` prefix — 48 bits, which is not `≥ 80`. -/
theorem c6_counterexample :
    ¬ (80 ≤ 4 * ((hash_key "tier:resource:id").length - "pgpt:".length)) := by
  decide

/-- C6 (amended): the Distributed Cache key is derived by a
deterministic hash (SHA-256, hex digest) of the structured name, so
equal names always map to the same key, but the digest is truncated to
48 bits (12 hex characters), not to at least 80. -/
theorem c6_hash_key_deterministic_48_bits (key key2 : String) (h : key = key2) :
    hash_key key = hash_key key2 ∧
    4 * ((hash_key key).length - "pgpt:".length) = 48 := by
  subst h
  refine ⟨rfl, ?_⟩
  have h64 := sha256hexChars_length (utf8Bytes key)
  simp [hash_key, String.length, h64]

/-- C6 witness: the amended theorem instantiated at the structured name
`meta:c1`. -/
theorem c6_hash_key_witness :
    hash_key "meta:c1" = hash_key "meta:c1" ∧
    4 * ((hash_key "meta:c1").length - "pgpt:".length) = 48 :=
  c6_hash_key_deterministic_48_bits "meta:c1" "meta:c1" rfl

/-! # C7 — hierarchy-edge TTLs -/

/-- C7 (counterexample): registering a hierarchy edge in an empty cache
stores the edge-set key with the 7-day `conversation_ttl` (604800 s),
not with the 30-day conversation-metadata TTL (2592000 s) the claim
asserts. -/
theorem c7_counterexample :
    redisTTLOf (store_chat_hierarchy_in_redis
        (⟨⟨[], [], true⟩, [], [], 0⟩ : ChatState) "M" "S" "u").1.redis
        (hierarchyMainKey "M") = some (some 604800) ∧
    (604800 : Nat) ≠ 2592000 ∧ metadata_ttl = 2592000 := by
  refine ⟨?_, by decide, rfl⟩
  decide

/-- C7 (amended): every hierarchy-edge write uses the 7-day
`conversation_ttl` — the same TTL message lists use — not the 30-day
`metadata_ttl` (which conversation metadata does use); registering a new
edge writes the edge-set key and the back-pointer key with that TTL,
while re-registering an existing edge leaves the edge-set key entirely
untouched (value and TTL) and only rewrites the back-pointer key. -/
theorem c7_hierarchy_edge_ttl (s : ChatState) (m sub u : String) (subs : List String)
    (h : redisGet s.redis (hierarchyMainKey m) = some (.subList subs)) :
    (sub ∈ subs →
      redisGet (store_chat_hierarchy_in_redis s m sub u).1.redis (hierarchyMainKey m) =
          some (.subList subs) ∧
      redisTTLOf (store_chat_hierarchy_in_redis s m sub u).1.redis (hierarchyMainKey m) =
          redisTTLOf s.redis (hierarchyMainKey m)) ∧
    (sub ∉ subs →
      redisGet (store_chat_hierarchy_in_redis s m sub u).1.redis (hierarchyMainKey m) =
          some (.subList (subs ++ [sub])) ∧
      redisTTLOf (store_chat_hierarchy_in_redis s m sub u).1.redis (hierarchyMainKey m) =
          some (some conversation_ttl)) ∧
    redisTTLOf (store_chat_hierarchy_in_redis s m sub u).1.redis (hierarchySubKey sub) =
        some (some conversation_ttl) ∧
    conversation_ttl = 604800 ∧ metadata_ttl = 2592000 ∧
    (∀ (now : Nat) (r : Redis) (cid : String) (mv : MetaV),
      redisTTLOf (cache_conversation_metadata now r cid mv) (get_metadata_key cid) =
        some (some metadata_ttl)) := by
  have hne := hierMainKey_ne_hierSubKey m sub
  refine ⟨?_, ?_, ?_, rfl, rfl, ?_⟩
  · intro hmem
    simp only [store_chat_hierarchy_in_redis, h, if_pos hmem]
    exact ⟨by rw [redisGet_setex_ne _ _ _ _ _ hne]; exact h,
           by rw [redisTTLOf_setex_ne _ _ _ _ _ hne]⟩
  · intro hmem
    simp only [store_chat_hierarchy_in_redis, h, if_neg hmem]
    exact ⟨by rw [redisGet_setex_ne _ _ _ _ _ hne, redisGet_setex_self],
           by rw [redisTTLOf_setex_ne _ _ _ _ _ hne, redisTTLOf_setex_self]⟩
  · simp only [store_chat_hierarchy_in_redis, h]
    by_cases hmem : sub ∈ subs
    · simp only [if_pos hmem]; exact redisTTLOf_setex_self _ _ _ _
    · simp only [if_neg hmem]; exact redisTTLOf_setex_self _ _ _ _
  · intro now r cid mv
    exact redisTTLOf_setex_self _ _ _ _

/-- The concrete state for the C7 witness: one registered edge
`M → [S0]` with an arbitrary TTL. -/
def c7WitnessState : ChatState :=
  ⟨⟨[], [], true⟩, [⟨hierarchyMainKey "M", some 99, .subList ["S0"]⟩], [], 0⟩

/-- C7 witness: the amended theorem instantiated at `c7WitnessState`,
registering the new edge `M → S`. -/
theorem c7_hierarchy_edge_ttl_witness :
    redisGet c7WitnessState.redis (hierarchyMainKey "M") = some (.subList ["S0"]) ∧
    (("S" ∈ ["S0"] →
      redisGet (store_chat_hierarchy_in_redis c7WitnessState "M" "S" "u").1.redis
          (hierarchyMainKey "M") = some (.subList ["S0"]) ∧
      redisTTLOf (store_chat_hierarchy_in_redis c7WitnessState "M" "S" "u").1.redis
          (hierarchyMainKey "M") = redisTTLOf c7WitnessState.redis (hierarchyMainKey "M")) ∧
    ("S" ∉ (["S0"] : List String) →
      redisGet (store_chat_hierarchy_in_redis c7WitnessState "M" "S" "u").1.redis
          (hierarchyMainKey "M") = some (.subList (["S0"] ++ ["S"])) ∧
      redisTTLOf (store_chat_hierarchy_in_redis c7WitnessState "M" "S" "u").1.redis
          (hierarchyMainKey "M") = some (some conversation_ttl)) ∧
    redisTTLOf (store_chat_hierarchy_in_redis c7WitnessState "M" "S" "u").1.redis
        (hierarchySubKey "S") = some (some conversation_ttl) ∧
    conversation_ttl = 604800 ∧ metadata_ttl = 2592000 ∧
    (∀ (now : Nat) (r : Redis) (cid : String) (mv : MetaV),
      redisTTLOf (cache_conversation_metadata now r cid mv) (get_metadata_key cid) =
        some (some metadata_ttl))) :=
  ⟨by decide, c7_hierarchy_edge_ttl c7WitnessState "M" "S" "u" ["S0"] (by decide)⟩

/-! # C8 — removeEdge idempotence, no empty edge list persisted -/

/-- An entry is hierarchy-healthy when any edge-set value it holds is a
non-empty, duplicate-free id list. -/
def hierEntryOK (e : REntry) : Bool :=
  match e.val with
  | RVal.subList l => !l.isEmpty && decide l.Nodup
  | _ => true

/-- The Hierarchy Index invariant: no Redis entry holds an empty (or
duplicated) edge-set list. -/
def HierListsOK (r : Redis) : Prop := ∀ e ∈ r, hierEntryOK e = true

theorem ne_nil_of_isEmpty_ne_true {α : Type} {l : List α} (h : l.isEmpty ≠ true) :
    l ≠ [] := by
  intro hnil; subst hnil; exact h rfl

theorem hierEntryOK_subList {e : REntry} {l : List String}
    (h : hierEntryOK e = true) (hv : e.val = RVal.subList l) : l ≠ [] ∧ l.Nodup := by
  simp only [hierEntryOK, hv, Bool.and_eq_true, Bool.not_eq_true', decide_eq_true_eq] at h
  refine ⟨?_, h.2⟩
  intro hnil
  subst hnil
  exact absurd h.1 (by simp)

theorem hierEntryOK_of (e : REntry)
    (h : ∀ l, e.val = RVal.subList l → l ≠ [] ∧ l.Nodup) : hierEntryOK e = true := by
  cases hval : e.val with
  | subList l =>
    obtain ⟨h1, h2⟩ := h l hval
    simp [hierEntryOK, hval, h2, List.isEmpty_iff, h1]
  | _ => simp [hierEntryOK, hval]

theorem HierListsOK_setex {r : Redis} {k : String} {t : Nat} {v : RVal}
    (hr : HierListsOK r) (hv : ∀ l, v = RVal.subList l → l ≠ [] ∧ l.Nodup) :
    HierListsOK (redisSetex r k t v) := by
  intro e he
  rcases List.mem_cons.1 he with h | h
  · subst h; exact hierEntryOK_of _ hv
  · exact hr e (List.mem_filter.1 h).1

theorem HierListsOK_remove {r : Redis} {k : String} (hr : HierListsOK r) :
    HierListsOK (redisRemove r k) := by
  intro e he
  exact hr e (List.mem_filter.1 he).1

/-- If a key currently reads as a value, the entry behind it is in the
database. -/
theorem redisGet_mem {r : Redis} {k : String} {v : RVal}
    (h : redisGet r k = some v) : ∃ e ∈ r, e.val = v := by
  unfold redisGet at h
  cases hf : r.find? (fun e => e.key == k) with
  | none => rw [hf] at h; simp at h
  | some e =>
    rw [hf] at h
    exact ⟨e, List.mem_of_find?_eq_some hf, by simpa using h⟩

/-- C8: `removeEdge` (`_remove_from_chat_hierarchy`) is idempotent on
the state; removing the last descendant of a main chat deletes the
edge-set key entirely; and no Hierarchy Index operation
(`_store_chat_hierarchy_in_redis`, `_get_all_sub_chats`,
`_remove_from_chat_hierarchy`) ever persists a key holding an empty (or
duplicated) descendant list. -/
theorem c8_remove_edge_idempotent_no_empty_lists (s : ChatState)
    (m sub u : String)
    (hOK : HierListsOK s.redis)
    (hW : (s.weaviate.convs.map (·.id)).Nodup) :
    (remove_from_chat_hierarchy (remove_from_chat_hierarchy s m sub u).1 m sub u).1 =
        (remove_from_chat_hierarchy s m sub u).1 ∧
    (redisGet s.redis (hierarchyMainKey m) = some (.subList [sub]) →
      redisGet (remove_from_chat_hierarchy s m sub u).1.redis (hierarchyMainKey m) = none) ∧
    HierListsOK (store_chat_hierarchy_in_redis s m sub u).1.redis ∧
    HierListsOK (get_all_sub_chats s m).2.redis ∧
    HierListsOK (remove_from_chat_hierarchy s m sub u).1.redis := by
  have hBack : ∀ l, RVal.backPtr ⟨m, u⟩ = RVal.subList l → l ≠ [] ∧ l.Nodup := by
    intro l hl; cases hl
  refine ⟨?_, ?_, ?_, ?_, ?_⟩
  · -- idempotence
    cases hget : redisGet s.redis (hierarchyMainKey m) with
    | none => simp [remove_from_chat_hierarchy, hget]
    | some v =>
      cases v with
      | subList l =>
        by_cases hmem : sub ∈ l
        · obtain ⟨e, he, hev⟩ := redisGet_mem hget
          obtain ⟨-, hnd⟩ := hierEntryOK_subList (hOK e he) hev
          by_cases hemp : (l.erase sub).isEmpty
          · simp only [remove_from_chat_hierarchy, hget, if_pos hmem, if_pos hemp]
            simp [remove_from_chat_hierarchy, redisGet_remove_self]
          · simp only [remove_from_chat_hierarchy, hget, if_pos hmem, if_neg hemp]
            have hnm : sub ∉ l.erase sub := hnd.not_mem_erase
            simp [remove_from_chat_hierarchy, redisGet_setex_self, hnm]
        · simp [remove_from_chat_hierarchy, hget, hmem]
      | backPtr b => simp [remove_from_chat_hierarchy, hget]
      | metaVal mv => simp [remove_from_chat_hierarchy, hget]
      | msgList l => simp [remove_from_chat_hierarchy, hget]
  · -- removing the last descendant deletes the key
    intro hget
    have hmem : sub ∈ [sub] := List.mem_singleton_self sub
    simp only [remove_from_chat_hierarchy, hget, if_pos hmem]
    simp [List.erase_cons_head, redisGet_remove_self]
  · -- invariant preserved by registerEdge
    cases hget : redisGet s.redis (hierarchyMainKey m) with
    | none =>
      simp only [store_chat_hierarchy_in_redis, hget]
      exact HierListsOK_setex (HierListsOK_setex hOK (by
        intro l hl
        cases hl
        exact ⟨by simp, List.nodup_singleton sub⟩)) hBack
    | some v =>
      cases v with
      | subList l =>
        obtain ⟨e, he, hev⟩ := redisGet_mem hget
        obtain ⟨hne, hnd⟩ := hierEntryOK_subList (hOK e he) hev
        by_cases hmem : sub ∈ l
        · simp only [store_chat_hierarchy_in_redis, hget, if_pos hmem]
          exact HierListsOK_setex hOK hBack
        · simp only [store_chat_hierarchy_in_redis, hget, if_neg hmem]
          refine HierListsOK_setex (HierListsOK_setex hOK ?_) hBack
          intro l' hl'
          cases hl'
          constructor
          · simp
          · refine List.nodup_append.2 ⟨hnd, List.nodup_singleton sub, ?_⟩
            intro a ha hb
            rw [List.mem_singleton] at hb
            exact hmem (hb ▸ ha)
      | backPtr b => simp only [store_chat_hierarchy_in_redis, hget]; exact hOK
      | metaVal mv => simp only [store_chat_hierarchy_in_redis, hget]; exact hOK
      | msgList l => simp only [store_chat_hierarchy_in_redis, hget]; exact hOK
  · -- invariant preserved by listDescendants' cache repopulation
    cases hget : redisGet s.redis (hierarchyMainKey m) with
    | none =>
      by_cases hids : ((s.weaviate.subConvs m).map (·.id)).isEmpty
      · simp [get_all_sub_chats, hget, hids]; exact hOK
      · simp only [get_all_sub_chats, hget, hids]
        refine HierListsOK_setex hOK ?_
        intro l hl
        cases hl
        refine ⟨ne_nil_of_isEmpty_ne_true hids, ?_⟩
        exact hW.sublist ((List.filter_sublist _).map _)
    | some v =>
      cases v with
      | subList l => simp [get_all_sub_chats, hget]; exact hOK
      | backPtr b => simp [get_all_sub_chats, hget]; exact hOK
      | metaVal mv => simp [get_all_sub_chats, hget]; exact hOK
      | msgList l => simp [get_all_sub_chats, hget]; exact hOK
  · -- invariant preserved by removeEdge
    cases hget : redisGet s.redis (hierarchyMainKey m) with
    | none => simp [remove_from_chat_hierarchy, hget]; exact hOK
    | some v =>
      cases v with
      | subList l =>
        obtain ⟨e, he, hev⟩ := redisGet_mem hget
        obtain ⟨-, hnd⟩ := hierEntryOK_subList (hOK e he) hev
        by_cases hmem : sub ∈ l
        · by_cases hemp : (l.erase sub).isEmpty
          · simp only [remove_from_chat_hierarchy, hget, if_pos hmem, if_pos hemp]
            exact HierListsOK_remove hOK
          · simp only [remove_from_chat_hierarchy, hget, if_pos hmem, if_neg hemp]
            refine HierListsOK_setex hOK ?_
            intro l' hl'
            cases hl'
            exact ⟨ne_nil_of_isEmpty_ne_true hemp, hnd.erase sub⟩
        · simp [remove_from_chat_hierarchy, hget, hmem]; exact hOK
      | backPtr b => simp [remove_from_chat_hierarchy, hget]; exact hOK
      | metaVal mv => simp [remove_from_chat_hierarchy, hget]; exact hOK
      | msgList l => simp [remove_from_chat_hierarchy, hget]; exact hOK

instance (r : Redis) : Decidable (HierListsOK r) :=
  inferInstanceAs (Decidable (∀ e ∈ r, hierEntryOK e = true))

/-- The concrete state for the C8 witness: a single registered edge
`M → [S]`. -/
def c8WitnessState : ChatState :=
  ⟨⟨[], [], true⟩, [⟨hierarchyMainKey "M", some 604800, .subList ["S"]⟩], [], 0⟩

/-- C8 witness: the theorem instantiated at `c8WitnessState`, removing
the edge `M → S` (the only descendant). -/
theorem c8_remove_edge_witness :
    HierListsOK c8WitnessState.redis ∧
    (c8WitnessState.weaviate.convs.map (·.id)).Nodup ∧
    ((remove_from_chat_hierarchy
        (remove_from_chat_hierarchy c8WitnessState "M" "S" "u").1 "M" "S" "u").1 =
          (remove_from_chat_hierarchy c8WitnessState "M" "S" "u").1 ∧
     (redisGet c8WitnessState.redis (hierarchyMainKey "M") = some (.subList ["S"]) →
       redisGet (remove_from_chat_hierarchy c8WitnessState "M" "S" "u").1.redis
         (hierarchyMainKey "M") = none) ∧
     HierListsOK (store_chat_hierarchy_in_redis c8WitnessState "M" "S" "u").1.redis ∧
     HierListsOK (get_all_sub_chats c8WitnessState "M").2.redis ∧
     HierListsOK (remove_from_chat_hierarchy c8WitnessState "M" "S" "u").1.redis) :=
  ⟨by decide, by decide,
   c8_remove_edge_idempotent_no_empty_lists c8WitnessState "M" "S" "u" (by decide) (by decide)⟩

/-! # C10 — message-list capping -/

theorem eraseDups_loop_names (m : Nat) :
    List.eraseDups.loop (List.replicate m "lpush" ++ ["ltrim", "expire"]) ["lpush"] =
      ["lpush", "ltrim", "expire"] := by
  induction m with
  | zero => rfl
  | succ m ih => simpa [List.replicate_succ, List.eraseDups.loop] using ih

theorem eraseDups_names (n : Nat) :
    List.eraseDups (List.replicate (n + 1) "lpush" ++ ["ltrim", "expire"]) =
      ["lpush", "ltrim", "expire"] := by
  rw [List.eraseDups, List.replicate_succ, List.cons_append]
  simp only [List.eraseDups.loop]
  exact eraseDups_loop_names n

theorem map_opName_lpush (key : String) (msgs : List RMsg) :
    (msgs.map (fun m => ROp.lpush key m)).map ROp.opName =
      List.replicate msgs.length "lpush" := by
  induction msgs with
  | nil => rfl
  | cons m ms ih => simp [ih, List.replicate_succ, ROp.opName]

/-- The pipelines built by `store_message` / `store_messages_batch` —
LPUSHes followed by one LTRIM and one EXPIRE — are left unchanged by
`pipeline_operation`'s grouping. -/
theorem groupOps_push_trim_expire (key : String) (msgs : List RMsg) (a b c : Nat) :
    groupOps (msgs.map (fun m => ROp.lpush key m) ++ [ROp.ltrim key a b, ROp.expire key c]) =
      msgs.map (fun m => ROp.lpush key m) ++ [ROp.ltrim key a b, ROp.expire key c] := by
  cases msgs with
  | nil => rfl
  | cons m ms =>
    unfold groupOps
    rw [List.map_append, map_opName_lpush]
    have : ((m :: ms).length) = ms.length + 1 := rfl
    rw [this]
    show (List.eraseDups (List.replicate (ms.length + 1) "lpush" ++
        (["ltrim", "expire"]))).flatMap _ = _
    rw [eraseDups_names]
    simp only [List.flatMap_cons, List.flatMap_nil, List.append_nil]
    rw [List.filter_append, List.filter_append, List.filter_append]
    have hlp : ((m :: ms).map (fun m => ROp.lpush key m)).filter
        (fun op => op.opName == "lpush") = (m :: ms).map (fun m => ROp.lpush key m) :=
      List.filter_eq_self.2 (by
        intro op hop
        obtain ⟨x, -, rfl⟩ := List.mem_map.1 hop
        rfl)
    have hlp2 : ∀ nm : String, nm ≠ "lpush" →
        ((m :: ms).map (fun m => ROp.lpush key m)).filter
          (fun op => op.opName == nm) = [] := by
      intro nm hnm
      refine List.filter_eq_nil_iff.2 ?_
      intro op hop
      obtain ⟨x, -, rfl⟩ := List.mem_map.1 hop
      simpa [ROp.opName] using fun he => hnm he.symm
    rw [hlp, hlp2 "ltrim" (by decide), hlp2 "expire" (by decide)]
    simp [ROp.opName]

/-- `redisGet` after replacing the value stored under `k`. -/
theorem redisGet_mapSetVal (r : Redis) (k : String) (v0 : RVal) :
    redisGet (r.map (fun e => if e.key == k then { e with val := v0 } else e)) k =
      (redisGet r k).map (fun _ => v0) := by
  induction r with
  | nil => rfl
  | cons e r ih =>
    simp only [List.map_cons]
    by_cases hk : e.key = k
    · have hb : (e.key == k) = true := by simpa using hk
      simp [redisGet, List.find?_cons, hb]
    · have hb : (e.key == k) = false := by simpa using hk
      simp [redisGet, List.find?_cons, hb]
      simpa [redisGet] using ih

/-- `redisGet` ignores TTL updates. -/
theorem redisGet_mapSetTTL (r : Redis) (k : String) (secs : Nat) (k' : String) :
    redisGet (r.map (fun e => if e.key == k then { e with ttl := some secs } else e)) k' =
      redisGet r k' := by
  induction r with
  | nil => rfl
  | cons e r ih =>
    simp only [List.map_cons]
    by_cases hk : e.key = k
    · have hb : (e.key == k) = true := by simpa using hk
      by_cases hk' : e.key = k'
      · have hb' : (e.key == k') = true := by simpa using hk'
        simp [redisGet, List.find?_cons, hb, hb']
      · have hb' : (e.key == k') = false := by simpa using hk'
        simp [redisGet, List.find?_cons, hb, hb']
        simpa [redisGet] using ih
    · have hb : (e.key == k) = false := by simpa using hk
      by_cases hk' : e.key = k'
      · have hb' : (e.key == k') = true := by simpa using hk'
        simp [redisGet, List.find?_cons, hb, hb']
      · have hb' : (e.key == k') = false := by simpa using hk'
        simp [redisGet, List.find?_cons, hb, hb']
        simpa [redisGet] using ih

theorem redisGet_eq_some_entry {r : Redis} {k : String} {v : RVal}
    (h : redisGet r k = some v) :
    ∃ e, r.find? (fun e => e.key == k) = some e ∧ e.val = v := by
  unfold redisGet at h
  cases hf : r.find? (fun e => e.key == k) with
  | none => rw [hf] at h; simp at h
  | some e => rw [hf] at h; exact ⟨e, rfl, by simpa using h⟩

theorem redisGet_eq_none_entry {r : Redis} {k : String}
    (h : redisGet r k = none) : r.find? (fun e => e.key == k) = none := by
  unfold redisGet at h
  cases hf : r.find? (fun e => e.key == k) with
  | none => rfl
  | some e => rw [hf] at h; simp at h

/-- `EXPIRE` never changes what `redisGet` returns. -/
theorem redisGet_expire (r : Redis) (k : String) (secs : Nat) (k' : String) :
    redisGet (redisExpire r k secs).1 k' = redisGet r k' := by
  unfold redisExpire
  cases hf : r.find? (fun e => e.key == k) with
  | none => rfl
  | some e => simpa using redisGet_mapSetTTL r k secs k'

theorem redisTTLOf_mapSetTTL_present (r : Redis) (k : String) (secs : Nat)
    (h : (r.find? (fun e => e.key == k)).isSome) :
    redisTTLOf (r.map (fun e => if e.key == k then { e with ttl := some secs } else e)) k =
      some (some secs) := by
  induction r with
  | nil => simp at h
  | cons e r ih =>
    simp only [List.map_cons]
    by_cases hk : e.key = k
    · have hb : (e.key == k) = true := by simpa using hk
      simp [redisTTLOf, List.find?_cons, hb]
    · have hb : (e.key == k) = false := by simpa using hk
      simp only [List.find?_cons, hb] at h
      simp [redisTTLOf, List.find?_cons, hb]
      simpa [redisTTLOf] using ih h

theorem redisTTLOf_expire_present (r : Redis) (k : String) (secs : Nat)
    (h : (r.find? (fun e => e.key == k)).isSome) :
    redisTTLOf (redisExpire r k secs).1 k = some (some secs) := by
  unfold redisExpire
  cases hf : r.find? (fun e => e.key == k) with
  | none => rw [hf] at h; simp at h
  | some e => simpa using redisTTLOf_mapSetTTL_present r k secs h

theorem redisGet_lpush_msgList {r : Redis} {k : String} {l : List RMsg} (x : RMsg)
    (h : redisGet r k = some (.msgList l)) :
    redisGet (redisLpush r k x).1 k = some (.msgList (x :: l)) := by
  obtain ⟨e, hf, hev⟩ := redisGet_eq_some_entry h
  simp only [redisLpush, hf, hev]
  rw [redisGet_mapSetVal, h]
  rfl

theorem redisGet_lpush_none {r : Redis} {k : String} (x : RMsg)
    (h : redisGet r k = none) :
    redisGet (redisLpush r k x).1 k = some (.msgList [x]) := by
  have hf := redisGet_eq_none_entry h
  simp [redisLpush, hf, redisGet, List.find?_cons]

theorem redisLpush_not_list {r : Redis} {k : String} {v : RVal} (x : RMsg)
    (h : redisGet r k = some v) (hv : ∀ l, v ≠ .msgList l) :
    (redisLpush r k x).1 = r := by
  obtain ⟨e, hf, hev⟩ := redisGet_eq_some_entry h
  subst hev
  cases hval : e.val with
  | msgList l => exact absurd hval (hv l)
  | subList l => simp [redisLpush, hf, hval]
  | backPtr b => simp [redisLpush, hf, hval]
  | metaVal m => simp [redisLpush, hf, hval]

theorem redisGet_ltrim_msgList {r : Redis} {k : String} {l : List RMsg} (a b : Nat)
    (h : redisGet r k = some (.msgList l)) :
    redisGet (redisLtrim r k a b).1 k = some (.msgList ((l.drop a).take (b + 1 - a))) := by
  obtain ⟨e, hf, hev⟩ := redisGet_eq_some_entry h
  simp only [redisLtrim, hf, hev]
  rw [redisGet_mapSetVal, h]
  rfl

theorem redisLtrim_none {r : Redis} {k : String} (a b : Nat)
    (h : redisGet r k = none) : (redisLtrim r k a b).1 = r := by
  have hf := redisGet_eq_none_entry h
  simp [redisLtrim, hf]

theorem redisLtrim_not_list {r : Redis} {k : String} {v : RVal} (a b : Nat)
    (h : redisGet r k = some v) (hv : ∀ l, v ≠ .msgList l) :
    (redisLtrim r k a b).1 = r := by
  obtain ⟨e, hf, hev⟩ := redisGet_eq_some_entry h
  subst hev
  cases hval : e.val with
  | msgList l => exact absurd hval (hv l)
  | subList l => simp [redisLtrim, hf, hval]
  | backPtr b => simp [redisLtrim, hf, hval]
  | metaVal m => simp [redisLtrim, hf, hval]

/-- The final LTRIM + EXPIRE of either storage pipeline leave the
conversation list with at most `max_messages_per_conversation` entries,
whatever state the LPUSHes produced. -/
theorem trim_expire_bound (rb : Redis × Bool) (k : String) (l' : List RMsg)
    (h : redisGet (applyROp (applyROp rb
        (.ltrim k 0 (max_messages_per_conversation - 1)))
        (.expire k conversation_ttl)).1 k = some (.msgList l')) :
    l'.length ≤ max_messages_per_conversation := by
  obtain ⟨r2, b2⟩ := rb
  cases hv : redisGet r2 k with
  | none =>
    exfalso
    have h1 : (redisLtrim r2 k 0 (max_messages_per_conversation - 1)).1 = r2 :=
      redisLtrim_none _ _ hv
    simp only [applyROp, h1] at h
    rw [redisGet_expire, hv] at h
    simp at h
  | some v =>
    cases v with
    | msgList l =>
      have h1 := redisGet_ltrim_msgList 0 (max_messages_per_conversation - 1) hv
      simp only [applyROp] at h
      rw [redisGet_expire, h1] at h
      obtain rfl : l' = (l.drop 0).take (max_messages_per_conversation - 1 + 1 - 0) := by
        simpa using h.symm
      calc ((l.drop 0).take (max_messages_per_conversation - 1 + 1 - 0)).length
          ≤ max_messages_per_conversation - 1 + 1 - 0 := List.length_take_le _ _
        _ ≤ max_messages_per_conversation := by decide
    | subList l2 =>
      exfalso
      have h1 : (redisLtrim r2 k 0 (max_messages_per_conversation - 1)).1 = r2 :=
        redisLtrim_not_list _ _ hv (by intro l hl; cases hl)
      simp only [applyROp, h1] at h
      rw [redisGet_expire, hv] at h
      simp at h
    | backPtr b3 =>
      exfalso
      have h1 : (redisLtrim r2 k 0 (max_messages_per_conversation - 1)).1 = r2 :=
        redisLtrim_not_list _ _ hv (by intro l hl; cases hl)
      simp only [applyROp, h1] at h
      rw [redisGet_expire, hv] at h
      simp at h
    | metaVal m2 =>
      exfalso
      have h1 : (redisLtrim r2 k 0 (max_messages_per_conversation - 1)).1 = r2 :=
        redisLtrim_not_list _ _ hv (by intro l hl; cases hl)
      simp only [applyROp, h1] at h
      rw [redisGet_expire, hv] at h
      simp at h

/-- One `store_messages_batch` pipeline leaves at most
`max_messages_per_conversation` entries under the conversation key. -/
theorem storeBatchChunk_bound (key : String) (r : Redis) (batch : List RMsg)
    (l' : List RMsg)
    (h : redisGet (storeBatchChunk key r batch).1 key = some (.msgList l')) :
    l'.length ≤ max_messages_per_conversation := by
  unfold storeBatchChunk pipeline_operation at h
  rw [groupOps_push_trim_expire, List.foldl_append] at h
  simp only [List.foldl_cons, List.foldl_nil] at h
  exact trim_expire_bound _ _ _ h

theorem batch_fold_bound (key : String) (cs : List (List RMsg)) (acc : Redis × Bool)
    (hacc : ∀ l', redisGet acc.1 key = some (.msgList l') →
      l'.length ≤ max_messages_per_conversation) :
    ∀ l', redisGet ((cs.foldl
        (fun acc batch => if acc.2 then storeBatchChunk key acc.1 batch else acc) acc)).1 key =
          some (.msgList l') →
      l'.length ≤ max_messages_per_conversation := by
  induction cs generalizing acc with
  | nil => exact hacc
  | cons c cs ih =>
    simp only [List.foldl_cons]
    refine ih _ ?_
    intro l' h
    by_cases hb : acc.2 = true
    · rw [if_pos hb] at h
      exact storeBatchChunk_bound _ _ _ _ h
    · rw [if_neg hb] at h
      exact hacc _ h

/-- C10: `store_message` LPUSHes the new message and LTRIMs the cached
conversation list to `max_messages_per_conversation = 500` entries in
the same pipeline (also refreshing the 7-day TTL), so the cached list
never exceeds 500 entries after an append and the oldest entries beyond
the cap are silently dropped; `store_messages_batch` ends every one of
its pipelines with the same LTRIM, so a non-empty batch also leaves at
most 500 entries. -/
theorem c10_store_message_caps_cached_list (r : Redis) (user_id conversation_id : String)
    (msg : RMsg) (messages : List RMsg) :
    (∀ l', redisGet (store_message r user_id conversation_id msg).1
        (get_conversation_key user_id conversation_id) = some (.msgList l') →
      l'.length ≤ max_messages_per_conversation) ∧
    (∀ l, redisGet r (get_conversation_key user_id conversation_id) = some (.msgList l) →
      redisGet (store_message r user_id conversation_id msg).1
          (get_conversation_key user_id conversation_id) =
        some (.msgList ((msg :: l).take max_messages_per_conversation)) ∧
      redisTTLOf (store_message r user_id conversation_id msg).1
          (get_conversation_key user_id conversation_id) =
        some (some conversation_ttl)) ∧
    (messages ≠ [] →
      ∀ l', redisGet (store_messages_batch r user_id conversation_id messages).1
          (get_conversation_key user_id conversation_id) = some (.msgList l') →
        l'.length ≤ max_messages_per_conversation) ∧
    max_messages_per_conversation = 500 := by
  set key := get_conversation_key user_id conversation_id with hkey
  have hsm : store_message r user_id conversation_id msg =
      applyROp (applyROp (applyROp (r, true) (.lpush key msg))
        (.ltrim key 0 (max_messages_per_conversation - 1)))
        (.expire key conversation_ttl) := by
    unfold store_message pipeline_operation
    have hg := groupOps_push_trim_expire key [msg] 0 (max_messages_per_conversation - 1)
      conversation_ttl
    simp only [List.map_cons, List.map_nil, List.cons_append, List.nil_append] at hg
    show List.foldl applyROp (r, true)
      (groupOps [ROp.lpush key msg, ROp.ltrim key 0 (max_messages_per_conversation - 1),
        ROp.expire key conversation_ttl]) = _
    rw [hg]
    rfl
  refine ⟨?_, ?_, ?_, rfl⟩
  · intro l' h
    rw [hsm] at h
    exact trim_expire_bound _ _ _ h
  · intro l hl
    have h1 := redisGet_lpush_msgList msg hl
    have h2 := redisGet_ltrim_msgList 0 (max_messages_per_conversation - 1)
      (r := (redisLpush r key msg).1) h1
    have harg : max_messages_per_conversation - 1 + 1 - 0 = max_messages_per_conversation := by
      decide
    rw [List.drop_zero, harg] at h2
    constructor
    · rw [hsm]
      simp only [applyROp]
      rw [redisGet_expire, h2]
    · rw [hsm]
      simp only [applyROp]
      apply redisTTLOf_expire_present
      have h3 := redisGet_eq_some_entry h2
      obtain ⟨e, hf, -⟩ := h3
      simp [hf]
  · intro hne l' h
    cases messages with
    | nil => exact absurd rfl hne
    | cons m ms =>
      unfold store_messages_batch at h
      simp only [List.isEmpty_cons, Bool.false_eq_true, if_false] at h
      have hch : chunksOf pipeline_batch_size (m :: ms) =
          ((m :: ms).take pipeline_batch_size) ::
            chunksGo ms.length pipeline_batch_size ((m :: ms).drop pipeline_batch_size) := rfl
      rw [hch] at h
      simp only [List.foldl_cons, if_pos rfl] at h
      refine batch_fold_bound _ _ _ ?_ _ h
      intro l2 h2
      exact storeBatchChunk_bound _ _ _ _ h2

/-- The concrete cache for the C10 witness: one cached message. -/
def c10WitnessRedis : Redis :=
  [⟨get_conversation_key "u" "c", none, .msgList [⟨"assistant", "old", 0⟩]⟩]

/-- C10 witness: storing a two-message batch into `c10WitnessRedis`
leaves the three cached messages, within the 500 cap. -/
theorem c10_store_message_witness :
    ([⟨"user", "a", 1⟩, ⟨"user", "b", 2⟩] : List RMsg) ≠ [] ∧
    redisGet (store_messages_batch c10WitnessRedis "u" "c"
        [⟨"user", "a", 1⟩, ⟨"user", "b", 2⟩]).1 (get_conversation_key "u" "c") =
      some (.msgList [⟨"user", "b", 2⟩, ⟨"user", "a", 1⟩, ⟨"assistant", "old", 0⟩]) ∧
    ([⟨"user", "b", 2⟩, ⟨"user", "a", 1⟩, ⟨"assistant", "old", 0⟩] : List RMsg).length ≤
      max_messages_per_conversation :=
  ⟨by decide, by decide,
   (c10_store_message_caps_cached_list c10WitnessRedis "u" "c" ⟨"user", "x", 9⟩
      [⟨"user", "a", 1⟩, ⟨"user", "b", 2⟩]).2.2.1 (by decide) _ (by decide)⟩

/-! # C3 — context budget -/

theorem pyTail_length {α : Type} (k : Nat) (l : List α) :
    (pyTail k l).length = if k = 0 then l.length else l.length - (l.length - k) := by
  unfold pyTail
  split <;> simp

theorem contextTruncate_length_le {α : Type} (inherited : Bool) (L : Nat) (hL : 1 ≤ L)
    (l : List α) :
    (contextTruncate inherited L l).length ≤ if inherited then 2 * L else L := by
  cases inherited
  · simp only [contextTruncate, Bool.false_eq_true, if_false]
    by_cases hlen : l.length > L
    · rw [if_pos hlen, pyTail_length, if_neg (by omega)]
      omega
    · rw [if_neg hlen]
      omega
  · simp only [contextTruncate, if_true]
    by_cases hlt : min l.length (L * 2) < l.length
    · rw [if_pos hlt, pyTail_length, if_neg (by omega)]
      omega
    · rw [if_neg hlt]
      omega

/-- The conversation behind the C3/C4/C5 concrete states. -/
def c3Conv : Conv := ⟨"C", "u", "T", none, false⟩

/-- A state with one cached conversation holding two stored messages. -/
def c3State : ChatState :=
  ⟨⟨[c3Conv], [⟨"m1", "C", "user", "one", 1⟩, ⟨"m2", "C", "assistant", "two", 2⟩], true⟩,
   [], [("C", c3Conv)], 0⟩

/-- C3 (counterexample): with budget `L = 0` the claim demands at most
0 entries, but Python's `lst[-0:]` slice is the whole list, so
`getContext` returns both stored messages. -/
theorem c3_counterexample :
    (get_conversation_context c3State "C" 0 false).1.length = 2 ∧
    ¬ ((get_conversation_context c3State "C" 0 false).1.length ≤ 0) := by
  constructor <;> decide

/-- C3 (amended): for every positive budget `L ≥ 1`, `getContext`
returns at most `L` entries when the computed inherit flag is false and
at most `2·L` always; at `L = 0` the final tail slices degenerate to
the whole list and the bound fails. -/
theorem c3_context_budget (s : ChatState) (cid : String) (L : Nat) (flag : Bool)
    (hL : 1 ≤ L) :
    ((contextPipeline s cid L flag).2.1 = false →
      (get_conversation_context s cid L flag).1.length ≤ L) ∧
    (get_conversation_context s cid L flag).1.length ≤ 2 * L := by
  rcases hp : contextPipeline s cid L flag with ⟨cands, inh, s'⟩
  have hctx : (get_conversation_context s cid L flag).1 =
      contextTruncate inh L ((sortByTimestamp cands).map ctxStrip) := by
    simp [get_conversation_context, hp]
  constructor
  · intro hinh
    have hinh' : inh = false := hinh
    subst hinh'
    rw [hctx]
    simpa using
      contextTruncate_length_le false L hL ((sortByTimestamp cands).map ctxStrip)
  · rw [hctx]
    have h := contextTruncate_length_le inh L hL ((sortByTimestamp cands).map ctxStrip)
    cases inh
    · simp only [Bool.false_eq_true, if_false] at h
      omega
    · simpa using h

/-- C3 witness: the amended theorem at budget `L = 3` on `c3State`. -/
theorem c3_context_budget_witness :
    1 ≤ 3 ∧
    (((contextPipeline c3State "C" 3 false).2.1 = false →
       (get_conversation_context c3State "C" 3 false).1.length ≤ 3) ∧
     (get_conversation_context c3State "C" 3 false).1.length ≤ 2 * 3) :=
  ⟨by decide, c3_context_budget c3State "C" 3 false (by decide)⟩

/-! # C4 — chronological, stable context ordering -/

/-- Timestamp order on candidate messages. -/
def tsLE (a b : CMsg) : Prop := a.timestamp ≤ b.timestamp

theorem mem_insertTS {y m : CMsg} {l : List CMsg} (h : y ∈ insertTS m l) :
    y = m ∨ y ∈ l := by
  induction l with
  | nil => simpa [insertTS] using h
  | cons x xs ih =>
    unfold insertTS at h
    by_cases hc : x.timestamp < m.timestamp
    · rw [if_pos hc] at h
      rcases List.mem_cons.1 h with h | h
      · exact Or.inr (h ▸ List.mem_cons_self x xs)
      · rcases ih h with h | h
        · exact Or.inl h
        · exact Or.inr (List.mem_cons_of_mem _ h)
    · rw [if_neg hc] at h
      exact (List.mem_cons.1 h).imp id id

theorem pairwise_insertTS (m : CMsg) {l : List CMsg} (h : l.Pairwise tsLE) :
    (insertTS m l).Pairwise tsLE := by
  induction l with
  | nil => simp [insertTS]
  | cons x xs ih =>
    rw [List.pairwise_cons] at h
    unfold insertTS
    by_cases hc : x.timestamp < m.timestamp
    · rw [if_pos hc, List.pairwise_cons]
      refine ⟨?_, ih h.2⟩
      intro y hy
      rcases mem_insertTS hy with rfl | hy
      · exact Nat.le_of_lt hc
      · exact h.1 y hy
    · rw [if_neg hc, List.pairwise_cons]
      refine ⟨?_, List.pairwise_cons.2 h⟩
      intro y hy
      rcases List.mem_cons.1 hy with rfl | hy
      · exact Nat.le_of_not_lt hc
      · exact Nat.le_trans (Nat.le_of_not_lt hc) (h.1 y hy)

theorem sortByTimestamp_pairwise (l : List CMsg) : (sortByTimestamp l).Pairwise tsLE := by
  induction l with
  | nil => simp [sortByTimestamp]
  | cons a l ih => exact pairwise_insertTS a ih

theorem filter_insertTS (m : CMsg) (l : List CMsg) (t : Nat) :
    (insertTS m l).filter (fun x => x.timestamp == t) =
      if m.timestamp = t then m :: l.filter (fun x => x.timestamp == t)
      else l.filter (fun x => x.timestamp == t) := by
  induction l with
  | nil =>
    unfold insertTS
    by_cases ht : m.timestamp = t
    · have hm : (m.timestamp == t) = true := by simpa using ht
      simp [List.filter, hm, ht]
    · have hm : (m.timestamp == t) = false := by simpa using ht
      simp [List.filter, hm, ht]
  | cons x xs ih =>
    unfold insertTS
    by_cases hc : x.timestamp < m.timestamp
    · rw [if_pos hc]
      by_cases ht : m.timestamp = t
      · have hx : (x.timestamp == t) = false := by simp; omega
        simp [List.filter_cons, hx, ih, ht]
      · simp [List.filter_cons, ih, ht]
    · rw [if_neg hc]
      by_cases ht : m.timestamp = t
      · have hm : (m.timestamp == t) = true := by simpa using ht
        simp [List.filter_cons, hm, ht]
      · have hm : (m.timestamp == t) = false := by simpa using ht
        simp [List.filter_cons, hm, ht]

/-- Python's stable sort preserves, for every timestamp, the
source-insertion order of the messages carrying it. -/
theorem sortByTimestamp_stable (l : List CMsg) (t : Nat) :
    (sortByTimestamp l).filter (fun x => x.timestamp == t) =
      l.filter (fun x => x.timestamp == t) := by
  induction l with
  | nil => rfl
  | cons a l ih =>
    show (insertTS a (sortByTimestamp l)).filter _ = _
    rw [filter_insertTS]
    by_cases ht : a.timestamp = t
    · have hb : (a.timestamp == t) = true := by simpa using ht
      simp [List.filter_cons, hb, ht, ih]
    · have hb : (a.timestamp == t) = false := by simpa using ht
      simp [List.filter_cons, hb, ht, ih]

theorem pyTail_map {α β : Type} (f : α → β) (k : Nat) (l : List α) :
    pyTail k (l.map f) = (pyTail k l).map f := by
  unfold pyTail
  split <;> simp [List.map_drop]

theorem contextTruncate_map {α β : Type} (f : α → β) (inh : Bool) (L : Nat) (l : List α) :
    contextTruncate inh L (l.map f) = (contextTruncate inh L l).map f := by
  cases inh
  · simp only [contextTruncate, Bool.false_eq_true, if_false, List.length_map]
    by_cases h : l.length > L
    · rw [if_pos h, if_pos h, pyTail_map]
    · rw [if_neg h, if_neg h]
  · simp only [contextTruncate, if_true, List.length_map]
    by_cases h : min l.length (L * 2) < l.length
    · rw [if_pos h, if_pos h, pyTail_map]
    · rw [if_neg h, if_neg h]

theorem pyTail_suffix {α : Type} (k : Nat) (l : List α) : pyTail k l <:+ l := by
  unfold pyTail
  split
  · exact List.suffix_refl l
  · exact List.drop_suffix _ _

theorem contextTruncate_suffix {α : Type} (inh : Bool) (L : Nat) (l : List α) :
    contextTruncate inh L l <:+ l := by
  cases inh
  · simp only [contextTruncate, Bool.false_eq_true, if_false]
    split
    · exact pyTail_suffix _ _
    · exact List.suffix_refl l
  · simp only [contextTruncate, if_true]
    split
    · exact pyTail_suffix _ _
    · exact List.suffix_refl l

/-- C4: the entries `getContext` returns are the `{role, content}`
projection of a suffix of the stable timestamp sort of the gathered
candidates: their underlying timestamps are non-decreasing, and the
sort keeps source-insertion order among equal timestamps. -/
theorem c4_context_chronological_stable (s : ChatState) (cid : String) (L : Nat)
    (flag : Bool) :
    (get_conversation_context s cid L flag).1 =
        (get_conversation_context_full s cid L flag).map ctxStrip ∧
    (get_conversation_context_full s cid L flag).Pairwise tsLE ∧
    (get_conversation_context_full s cid L flag) <:+
        sortByTimestamp (contextPipeline s cid L flag).1 ∧
    (∀ t, (sortByTimestamp (contextPipeline s cid L flag).1).filter
        (fun x => x.timestamp == t) =
      (contextPipeline s cid L flag).1.filter (fun x => x.timestamp == t)) := by
  rcases hp : contextPipeline s cid L flag with ⟨cands, inh, s'⟩
  have h1 : (get_conversation_context s cid L flag).1 =
      contextTruncate inh L ((sortByTimestamp cands).map ctxStrip) := by
    simp [get_conversation_context, hp]
  have h2 : get_conversation_context_full s cid L flag =
      contextTruncate inh L (sortByTimestamp cands) := by
    simp [get_conversation_context_full, hp]
  refine ⟨?_, ?_, ?_, ?_⟩
  · rw [h1, h2, contextTruncate_map]
  · rw [h2]
    exact (sortByTimestamp_pairwise cands).sublist (contextTruncate_suffix _ _ _).sublist
  · rw [h2]
    exact contextTruncate_suffix inh L (sortByTimestamp cands)
  · intro t
    exact sortByTimestamp_stable cands t

/-! # C5 — resolveMainChat -/

def c5ConvA : Conv := ⟨"A", "u", "A", some "B", false⟩

def c5ConvB : Conv := ⟨"B", "u", "B", some "A", false⟩

/-- Two conversations that are each other's parent, both sitting in the
local cache: corrupted (cyclic) parent data. -/
def c5CycState : ChatState :=
  ⟨⟨[c5ConvA, c5ConvB], [], true⟩, [], [("A", c5ConvA), ("B", c5ConvB)], 0⟩

theorem c5_cycle_step_A (n : Nat) :
    mainChatLoop (n + 1) c5CycState c5ConvA = mainChatLoop n c5CycState c5ConvB := rfl

theorem c5_cycle_step_B (n : Nat) :
    mainChatLoop (n + 1) c5CycState c5ConvB = mainChatLoop n c5CycState c5ConvA := rfl

theorem c5_cycle_none (n : Nat) :
    mainChatLoop n c5CycState c5ConvA = none ∧ mainChatLoop n c5CycState c5ConvB = none := by
  induction n with
  | zero => exact ⟨rfl, rfl⟩
  | succ n ih =>
    exact ⟨by rw [c5_cycle_step_A]; exact ih.2, by rw [c5_cycle_step_B]; exact ih.1⟩

/-- C5 (counterexample): on cyclic parent data the walk does not finish
within the claimed 64-hop bound and raises nothing — at every fuel up
to 100 it is still running (the embedded code has no error outcome at
all, and no bound check). -/
theorem c5_counterexample :
    ¬ ∃ fuel ∈ List.range 100, (mainChatLoop fuel c5CycState c5ConvA).isSome = true := by
  decide

/-- C5 (amended): `_get_main_chat_id` returns the conversation's own id
when it has no parent; but the parent walk has no depth bound and never
raises: on cyclic parent data (two conversations that are each other's
parent) it never finishes, whatever the fuel. -/
theorem c5_resolve_main_chat (s : ChatState) (c : Conv) (fuel : Nat)
    (hroot : c.parent_id = none) :
    mainChatLoop (fuel + 1) s c = some (c.id, s) ∧
    (∀ cid s', get_conversation s cid = (some c, s') →
      get_main_chat_id (fuel + 1) s cid = some (c.id, s')) ∧
    (∀ n, mainChatLoop n c5CycState c5ConvA = none) := by
  refine ⟨by simp [mainChatLoop, hroot], ?_, fun n => (c5_cycle_none n).1⟩
  intro cid s' hg
  simp [get_main_chat_id, hg, mainChatLoop, hroot]

/-- C5 witness: resolving the parentless conversation of `c3State`, and
the 64-hop mark of the cyclic walk. -/
theorem c5_resolve_main_chat_witness :
    c3Conv.parent_id = none ∧
    get_conversation c3State "C" = (some c3Conv, c3State) ∧
    get_main_chat_id 1 c3State "C" = some (c3Conv.id, c3State) ∧
    mainChatLoop 64 c5CycState c5ConvA = none :=
  ⟨rfl, by decide,
   (c5_resolve_main_chat c3State c3Conv 0 rfl).2.1 "C" c3State (by decide),
   (c5_resolve_main_chat c3State c3Conv 0 rfl).2.2 64⟩

/-! # Lemmas about `get_conversation` and completed delete runs -/

theorem get_conversation_weaviate (s : ChatState) (cid : String) :
    (get_conversation s cid).2.weaviate = s.weaviate := by
  unfold get_conversation
  rcases hl : get_cached_conversation s cid with _ | c
  · rcases hm : get_cached_conversation_metadata s.now s.redis cid with ⟨mo, r'⟩
    rcases mo with _ | m
    · rcases hw : s.weaviate.getConv cid with _ | c <;> simp [hm, hw]
    · simp [hm]
  · simp

theorem get_conversation_localCache_of_empty (s : ChatState) (cid : String)
    (h : s.localCache = []) : (get_conversation s cid).2.localCache.length ≤ 1 := by
  unfold get_conversation
  have hl : get_cached_conversation s cid = none := by
    simp [get_cached_conversation, h]
  rw [hl]
  rcases hm : get_cached_conversation_metadata s.now s.redis cid with ⟨mo, r'⟩
  rcases mo with _ | m
  · rcases hw : s.weaviate.getConv cid with _ | c <;> simp [hm, hw, cacheInsert, h]
  · simp [hm, cacheInsert, h]

/-- A completed STEP 6/7 changes only the durable store. -/
theorem deleteStep67_state {mdel : Weav → String → Option (Weav × List Event)}
    {convOpt : Option Conv} {s6 : ChatState} {ev4 : List Event}
    {s7 : ChatState} {ev6 : List Event}
    (h : deleteStep67 mdel convOpt s6 ev4 = some (s7, ev6)) :
    s7.localCache = s6.localCache ∧ s7.redis = s6.redis ∧ s7.now = s6.now := by
  rcases convOpt with _ | c
  · unfold deleteStep67 at h
    simp only [Option.some.injEq, Prod.mk.injEq] at h
    rw [← h.1]
    exact ⟨rfl, rfl, rfl⟩
  · unfold deleteStep67 at h
    dsimp only at h
    cases hm : mdel s6.weaviate c.id with
    | none => rw [hm] at h; simp at h
    | some p =>
      rw [hm] at h
      simp only [Option.map_some', Option.some.injEq, Prod.mk.injEq] at h
      rw [← h.1]
      exact ⟨rfl, rfl, rfl⟩

/-- STEP 8/9 reports success, and starting from an empty local cache it
leaves at most one entry (the one the verification re-read inserts). -/
theorem deleteStep89_spec (cid : String) (user_id : Option String) (s7 : ChatState)
    (ev6 : List Event) :
    (deleteStep89 cid user_id s7 ev6).1 = true ∧
    (s7.localCache = [] →
      (deleteStep89 cid user_id s7 ev6).2.1.localCache.length ≤ 1) := by
  unfold deleteStep89
  rcases hv : get_conversation s7 cid with ⟨verifOpt, s8⟩
  have h8 : s7.localCache = [] → s8.localCache.length ≤ 1 := by
    intro h7
    have := get_conversation_localCache_of_empty s7 cid h7
    rw [hv] at this
    exact this
  constructor
  · rcases hgc : s8.weaviate.getConv cid with _ | c <;> simp [hv, hgc]
  · intro h7
    rcases hgc : s8.weaviate.getConv cid with _ | c <;> simp [hv, hgc] <;> exact h8 h7

/-- Any completed run of STEPs 1–9 reports success and leaves at most
one local-cache entry (the one the verification re-read may insert). -/
theorem deleteAfterResolve_run_spec
    (rec : ChatState → String → Option (Bool × ChatState × List Event))
    (mdel : Weav → String → Option (Weav × List Event))
    (cid : String) (convOpt : Option Conv) (user_id : Option String)
    (main : String) (subIds : List String) (s3 : ChatState)
    (b : Bool) (s' : ChatState) (tr : List Event)
    (h : deleteAfterResolve rec mdel cid convOpt user_id main subIds s3 =
      some (b, s', tr)) :
    b = true ∧ s'.localCache.length ≤ 1 := by
  unfold deleteAfterResolve at h
  dsimp only at h
  split at h
  next => exact absurd h (by simp)
  next s5 ev4 heq4 =>
    split at h
    next => exact absurd h (by simp)
    next s7 ev6 heq67 =>
      have hb := (deleteStep89_spec cid user_id s7 ev6).1
      have hcache : s7.localCache = [] := by
        have := (deleteStep67_state heq67).1
        simpa using this
      have hlen := (deleteStep89_spec cid user_id s7 ev6).2 hcache
      have heq : deleteStep89 cid user_id s7 ev6 = (b, s', tr) := by
        simpa using h
      rw [heq] at hb hlen
      exact ⟨hb, hlen⟩

/-- Any completed `delete_conversation` run returns `True` and leaves
at most one local-cache entry; on the degraded (durable-store-down)
path the local cache is left empty. -/
theorem delete_conversation_run_spec (fuel : Nat) (s : ChatState) (cid : String)
    (b : Bool) (s' : ChatState) (tr : List Event)
    (h : delete_conversation fuel s cid = some (b, s', tr)) :
    b = true ∧ s'.localCache.length ≤ 1 ∧
      (s.weaviate.available = false → s'.localCache = []) := by
  cases fuel with
  | zero => exact absurd h (by simp [delete_conversation])
  | succ fuel =>
    rw [show delete_conversation (fuel + 1) s cid =
        (let (convOpt, s1) := get_conversation s cid
         let user_id := convOpt.map (·.user_id)
         if !s1.weaviate.available then
           let r2 := purgeKeys s1.redis (relatedKey cid none user_id)
           some (true, { s1 with redis := r2, localCache := [] }, [])
         else
           match get_main_chat_id fuel s1 cid with
           | none => none
           | some (main_chat_id, s2) =>
             let (sub_chat_ids, s3) :=
               if cid == main_chat_id then get_all_sub_chats s2 cid else ([], s2)
             deleteAfterResolve (delete_conversation fuel) (modelDelete fuel)
               cid convOpt user_id main_chat_id sub_chat_ids s3) from rfl] at h
    rcases hg : get_conversation s cid with ⟨convOpt, s1⟩
    have hwav : s1.weaviate = s.weaviate := by
      have hw := get_conversation_weaviate s cid
      rw [hg] at hw
      exact hw
    simp only [hg] at h
    by_cases hav : s1.weaviate.available = true
    · have hcond : (!s1.weaviate.available) = false := by simp [hav]
      rw [hcond] at h
      simp only [Bool.false_eq_true, if_false] at h
      have hdeg : s.weaviate.available = false → s'.localCache = [] := by
        intro hfalse
        rw [hwav, hfalse] at hav
        exact absurd hav (by simp)
      cases hm : get_main_chat_id fuel s1 cid with
      | none => rw [hm] at h; exact absurd h (by simp)
      | some p =>
        obtain ⟨main, s2⟩ := p
        simp only [hm] at h
        by_cases hcm : (cid == main) = true
        · simp only [hcm, if_true] at h
          rcases hsub : get_all_sub_chats s2 cid with ⟨subIds, s3⟩
          simp only [hsub] at h
          obtain ⟨h1, h2⟩ := deleteAfterResolve_run_spec _ _ _ _ _ _ _ _ _ _ _ h
          exact ⟨h1, h2, hdeg⟩
        · simp only [hcm, Bool.false_eq_true, if_false] at h
          obtain ⟨h1, h2⟩ := deleteAfterResolve_run_spec _ _ _ _ _ _ _ _ _ _ _ h
          exact ⟨h1, h2, hdeg⟩
    · have hcond : (!s1.weaviate.available) = true := by
        simp only [Bool.not_eq_true] at hav
        simp [hav]
      rw [hcond] at h
      simp only [if_true] at h
      obtain ⟨hb, hs, -⟩ := by
        simpa only [Option.some.injEq, Prod.mk.injEq] using h
      refine ⟨hb.symm, ?_, fun _ => ?_⟩ <;> rw [← hs] <;> simp

/-! # C2 — deleteConversation is idempotent at the interface -/

/-- C2: every completed `delete_conversation` run returns `true` —
including on an id that never existed or was already deleted — and a
second run on the same id returns `true` again.  (In the pure model
external calls do not throw; the Python code catches every exception
internally and still returns `True`.) -/
theorem c2_delete_returns_true_twice (fuel₁ fuel₂ : Nat) (s : ChatState) (cid : String)
    (b₁ b₂ : Bool) (s₁ s₂ : ChatState) (tr₁ tr₂ : List Event)
    (h₁ : delete_conversation fuel₁ s cid = some (b₁, s₁, tr₁))
    (h₂ : delete_conversation fuel₂ s₁ cid = some (b₂, s₂, tr₂)) :
    b₁ = true ∧ b₂ = true :=
  ⟨(delete_conversation_run_spec _ _ _ _ _ _ h₁).1,
   (delete_conversation_run_spec _ _ _ _ _ _ h₂).1⟩

/-- The result of deleting the never-existing id `ghost-123`. -/
def c2run1 : Bool × ChatState × List Event :=
  (delete_conversation 5 c3State "ghost-123").getD (false, c3State, [])

/-- The result of deleting `ghost-123` a second time. -/
def c2run2 : Bool × ChatState × List Event :=
  (delete_conversation 5 c2run1.2.1 "ghost-123").getD (false, c3State, [])

/-- C2 witness: deleting the ghost id twice completes and returns
`true` both times. -/
theorem c2_delete_returns_true_witness :
    delete_conversation 5 c3State "ghost-123" = some (c2run1.1, c2run1.2.1, c2run1.2.2) ∧
    delete_conversation 5 c2run1.2.1 "ghost-123" =
      some (c2run2.1, c2run2.2.1, c2run2.2.2) ∧
    (c2run1.1 = true ∧ c2run2.1 = true) :=
  ⟨by decide, by decide,
   c2_delete_returns_true_twice 5 5 c3State "ghost-123" c2run1.1 c2run2.1 c2run1.2.1
     c2run2.2.1 c2run1.2.2 c2run2.2.2 (by decide) (by decide)⟩

/-! # C9 — the local cache after a delete -/

def c9Conv : Conv := ⟨"M", "u", "Main", none, false⟩

/-- A main chat `M` whose metadata sits in the distributed cache (as
creation leaves it), plus an unrelated local-cache entry `X`. -/
def c9State : ChatState :=
  ⟨⟨[c9Conv], [], true⟩,
   [⟨get_metadata_key "M", some metadata_ttl, .metaVal ⟨"M", "u", "Main", 0⟩⟩],
   [("X", ⟨"X", "v", "Other", none, false⟩)], 0⟩

/-- The result of deleting `M` in `c9State`. -/
def c9run : Bool × ChatState × List Event :=
  (delete_conversation 5 c9State "M").getD (false, c9State, [])

/-- C9 (counterexample): after `delete_conversation("M")` returns, the
local cache is NOT empty — STEP 5 evicted everything (including the
unrelated entry `X`), but the STEP 8 verification re-read found `M`'s
surviving hashed metadata key and re-inserted `M` into the local
cache. -/
theorem c9_counterexample :
    delete_conversation 5 c9State "M" = some (c9run.1, c9run.2.1, c9run.2.2) ∧
    c9run.2.1.localCache ≠ [] ∧
    (c9run.2.1.localCache.map (fun p => p.1)) = ["M"] := by
  refine ⟨by decide, by decide, by decide⟩

/-- C9 (amended): `delete_conversation` clears the whole process-local
cache — including entries unrelated to the deleted id — at its
cache-purge step, and the degraded durable-store path returns with the
cache empty; but on the main path the final verification re-read can
re-insert one entry (the target reconstructed from its surviving
distributed-cache metadata), so after the call the cache holds at most
one entry rather than none. -/
theorem c9_delete_clears_local_cache (fuel : Nat) (s : ChatState) (cid : String)
    (b : Bool) (s' : ChatState) (tr : List Event)
    (h : delete_conversation fuel s cid = some (b, s', tr)) :
    s'.localCache.length ≤ 1 ∧
      (s.weaviate.available = false → s'.localCache = []) :=
  ⟨(delete_conversation_run_spec _ _ _ _ _ _ h).2.1,
   (delete_conversation_run_spec _ _ _ _ _ _ h).2.2⟩

/-- C9 witness: the amended theorem on the concrete `c9State` run. -/
theorem c9_delete_clears_local_cache_witness :
    delete_conversation 5 c9State "M" = some (c9run.1, c9run.2.1, c9run.2.2) ∧
    (c9run.2.1.localCache.length ≤ 1 ∧
      (c9State.weaviate.available = false → c9run.2.1.localCache = [])) :=
  ⟨by decide,
   c9_delete_clears_local_cache 5 c9State "M" c9run.1 c9run.2.1 c9run.2.2 (by decide)⟩

/-! # C1 — cascading deletion: lemmas about the durable store -/

theorem getConv_eq_none_iff {w : Weav} {x : String} :
    w.getConv x = none ↔ ∀ c ∈ w.convs, c.id ≠ x := by
  unfold Weav.getConv
  rw [List.find?_eq_none]
  constructor
  · intro h c hc he
    exact absurd (by simpa using he) (by simpa using h c hc)
  · intro h c hc
    simpa using h c hc

theorem removeConv_available (w : Weav) (x : String) :
    (w.removeConv x).available = w.available := rfl

theorem removeMsg_convs (w : Weav) (x : String) :
    (w.removeMsg x).convs = w.convs := rfl

theorem removeMsg_available (w : Weav) (x : String) :
    (w.removeMsg x).available = w.available := rfl

theorem removeConv_mono {w : Weav} {x : String} {c : Conv}
    (h : c ∈ (w.removeConv x).convs) : c ∈ w.convs :=
  (List.mem_filter.1 h).1

theorem removeConv_getConv_self (w : Weav) (x : String) :
    (w.removeConv x).getConv x = none := by
  rw [getConv_eq_none_iff]
  intro c hc
  have := (List.mem_filter.1 hc).2
  simpa [bne] using this

theorem removeConv_removed {w : Weav} {x : String} {c : Conv}
    (hc : c ∈ w.convs) (h : c ∉ (w.removeConv x).convs) : c.id = x := by
  by_contra hne
  exact h (List.mem_filter.2 ⟨hc, by simpa [bne] using hne⟩)

theorem foldl_removeMsg_convs (msgs : List Msg) (w : Weav) :
    (msgs.foldl (fun acc m => acc.removeMsg m.id) w).convs = w.convs := by
  induction msgs generalizing w with
  | nil => rfl
  | cons m ms ih => rw [List.foldl_cons, ih, removeMsg_convs]

theorem foldl_removeMsg_available (msgs : List Msg) (w : Weav) :
    (msgs.foldl (fun acc m => acc.removeMsg m.id) w).available = w.available := by
  induction msgs generalizing w with
  | nil => rfl
  | cons m ms ih => rw [List.foldl_cons, ih, removeMsg_available]

/-! ## Purge lemmas -/

theorem purgeKeys_get_of_not (r : Redis) (p : String → Bool) (k : String)
    (h : p k = false) : redisGet (purgeKeys r p) k = redisGet r k := by
  induction r with
  | nil => rfl
  | cons e r ih =>
    by_cases hk : e.key = k
    · subst hk
      simp [purgeKeys, List.filter_cons, h, redisGet, List.find?_cons]
    · by_cases hp : p e.key = true
      · simp only [purgeKeys, List.filter_cons, hp, Bool.not_true, Bool.false_eq_true,
          if_false] at ih ⊢
        rw [ih]
        simp [redisGet, List.find?_cons, show (e.key == k) = false by simpa using hk]

      · simp only [purgeKeys, List.filter_cons, hp, Bool.not_false, if_true] at ih ⊢
        simp only [redisGet, List.find?_cons,
          show (e.key == k) = false by simpa using hk] at ih ⊢
        exact ih

theorem purgeKeys_get_none (r : Redis) (p : String → Bool) (k : String)
    (h : p k = true) : redisGet (purgeKeys r p) k = none := by
  have hf : (purgeKeys r p).find? (fun e => e.key == k) = none := by
    rw [List.find?_eq_none]
    intro e he
    have hmem := List.mem_filter.1 he
    by_contra hb
    have hek : e.key = k := by simpa using hb
    rw [hek, h] at hmem
    simp at hmem
  unfold redisGet
  rw [hf]
  rfl

theorem purgeKeys_none_mono (r : Redis) (p : String → Bool) (k : String)
    (h : redisGet r k = none) : redisGet (purgeKeys r p) k = none := by
  by_cases hp : p k = true
  · exact purgeKeys_get_none r p k hp
  · rw [purgeKeys_get_of_not r p k (by simpa using hp)]
    exact h

/-- A string contains itself inside any decoration: used for
`conversation_id in key_str` on `hierarchy:main:{id}`. -/
theorem containsStr_append_self (pre : String) (x : String) :
    containsStr (pre ++ x) x = true := by
  unfold containsStr
  rw [List.any_eq_true]
  refine ⟨pre.data.length, ?_, ?_⟩
  · rw [List.mem_range]
    simp [String.data_append]
    omega
  · rw [String.data_append, List.drop_append_of_le_length (le_refl _)]
    have hdrop : List.drop pre.length pre.data = [] := by
      cases pre with
      | mk pd => simp [String.length]
    simp [hdrop, List.isPrefixOf_iff_prefix]

theorem hierarchyMainKey_inj {a b : String} (h : hierarchyMainKey a = hierarchyMainKey b) :
    a = b := by
  have hd := congrArg String.data h
  simp only [hierarchyMainKey, String.data_append] at hd
  have := List.append_cancel_left hd
  exact String.ext this

/-- `relatedKey` holds on the target's own hierarchy edge-set key. -/
theorem relatedKey_hierMain (cid : String) (mo : Option String) (uo : Option String) :
    relatedKey cid mo uo (hierarchyMainKey cid) = true := by
  unfold relatedKey hierarchyMainKey
  rw [containsStr_append_self]
  simp

/-! ## The protection invariant for a main chat `M`

`delete_conversation` on a main chat `M` must not delete `M`'s own
durable record before STEP 6 (its own `ConversationModel.delete`).  The
recursion can only reach `M` early through corrupted hierarchy data (an
edge list containing `M`), a conversation wrongly recorded as `M`'s
child, or cached metadata for some other id that carries `M`'s id (the
48-bit truncated key hash makes such aliasing possible in principle).
The invariant `INV` below rules these out; every clause holds in states
built by the creation paths and is preserved by the deletion
coordinator, which is proved alongside its run specification. -/

/-- A Redis entry whose value is a hierarchy edge list avoids the id
`M` and stays inside the finite id universe `U`. -/
def subEntryOK (M : String) (U : List String) (e : REntry) : Bool :=
  match e.val with
  | RVal.subList l => !(decide (M ∈ l)) && decide (∀ d ∈ l, d ∈ U)
  | _ => true

/-- A Redis entry whose value is conversation metadata carrying `M`'s
id sits under `M`'s own hashed metadata key. -/
def metaEntryOK (M : String) (e : REntry) : Bool :=
  match e.val with
  | RVal.metaVal m => decide (m.id = M → e.key = get_metadata_key M)
  | _ => true

/-- Durable-store clauses: `M`'s record (if any) is a root, and every
stored conversation id lies in `U`. -/
def ConvsOK (M : String) (U : List String) (w : Weav) : Prop :=
  (∀ c ∈ w.convs, c.id = M → c.parent_id = none) ∧
  (∀ c ∈ w.convs, c.id ∈ U)

/-- Distributed-cache clauses: every entry passes both entry checks. -/
def RedisOK (M : String) (U : List String) (r : Redis) : Prop :=
  (∀ e ∈ r, subEntryOK M U e = true) ∧
  (∀ e ∈ r, metaEntryOK M e = true)

/-- Local-cache clause: every entry is stored under its own id. -/
def CacheOK (cache : List (String × Conv)) : Prop :=
  ∀ p ∈ cache, p.2.id = p.1

/-- The protection invariant for the main chat `M` over the universe
`U` of admissible conversation ids. -/
def INV (M : String) (U : List String) (s : ChatState) : Prop :=
  ConvsOK M U s.weaviate ∧ RedisOK M U s.redis ∧ CacheOK s.localCache

/-- No id of `U` other than `M` collides with `M`'s truncated metadata
key hash. -/
def Hinj (M : String) (U : List String) : Prop :=
  ∀ z ∈ U, z ≠ M → get_metadata_key z ≠ get_metadata_key M

theorem subEntryOK_elim {M : String} {U : List String} {e : REntry} {l : List String}
    (h : subEntryOK M U e = true) (hv : e.val = RVal.subList l) :
    M ∉ l ∧ ∀ d ∈ l, d ∈ U := by
  unfold subEntryOK at h
  rw [hv] at h
  simpa using h

theorem metaEntryOK_elim {M : String} {e : REntry} {m : MetaV}
    (h : metaEntryOK M e = true) (hv : e.val = RVal.metaVal m) :
    m.id = M → e.key = get_metadata_key M := by
  unfold metaEntryOK at h
  rw [hv] at h
  exact of_decide_eq_true h

theorem subEntryOK_metaVal (M : String) (U : List String) (k : String) (t : Option Nat)
    (m : MetaV) : subEntryOK M U ⟨k, t, RVal.metaVal m⟩ = true := rfl

theorem metaEntryOK_subList (M : String) (k : String) (t : Option Nat)
    (l : List String) : metaEntryOK M ⟨k, t, RVal.subList l⟩ = true := rfl

theorem subEntryOK_subList_intro {M : String} {U : List String} {l : List String}
    (k : String) (t : Option Nat) (h1 : M ∉ l) (h2 : ∀ d ∈ l, d ∈ U) :
    subEntryOK M U ⟨k, t, RVal.subList l⟩ = true := by
  simp [subEntryOK, h1]
  exact h2

theorem metaEntryOK_metaVal_intro {M : String} {m : MetaV} (k : String) (t : Option Nat)
    (h : m.id = M → k = get_metadata_key M) :
    metaEntryOK M ⟨k, t, RVal.metaVal m⟩ = true := by
  simp only [metaEntryOK]
  exact decide_eq_true h

theorem RedisOK_filter {M : String} {U : List String} {r : Redis}
    (h : RedisOK M U r) (p : REntry → Bool) : RedisOK M U (r.filter p) :=
  ⟨fun e he => h.1 e (List.mem_filter.1 he).1,
   fun e he => h.2 e (List.mem_filter.1 he).1⟩

theorem RedisOK_remove {M : String} {U : List String} {r : Redis}
    (h : RedisOK M U r) (k : String) : RedisOK M U (redisRemove r k) :=
  RedisOK_filter h _

theorem RedisOK_purge {M : String} {U : List String} {r : Redis}
    (h : RedisOK M U r) (p : String → Bool) : RedisOK M U (purgeKeys r p) :=
  RedisOK_filter h _

theorem RedisOK_setex {M : String} {U : List String} {r : Redis} {k : String}
    {t : Nat} {v : RVal} (h : RedisOK M U r)
    (h1 : subEntryOK M U ⟨k, some t, v⟩ = true)
    (h2 : metaEntryOK M ⟨k, some t, v⟩ = true) :
    RedisOK M U (redisSetex r k t v) := by
  constructor
  · intro e he
    rcases List.mem_cons.1 he with rfl | he'
    · exact h1
    · exact (RedisOK_remove h k).1 e he'
  · intro e he
    rcases List.mem_cons.1 he with rfl | he'
    · exact h2
    · exact (RedisOK_remove h k).2 e he'

theorem ConvsOK_mono {M : String} {U : List String} {w w' : Weav}
    (h : ConvsOK M U w) (hm : ∀ c ∈ w'.convs, c ∈ w.convs) : ConvsOK M U w' :=
  ⟨fun c hc => h.1 c (hm c hc), fun c hc => h.2 c (hm c hc)⟩

theorem CacheOK_insert {cache : List (String × Conv)} (c : Conv)
    (h : CacheOK cache) : CacheOK (cacheInsert cache c) := by
  have key : ∀ q ∈ (if (cache.find? (fun p => p.1 == c.id)).isSome then
      cache.map (fun p => if p.1 == c.id then (p.1, c) else p)
    else cache ++ [(c.id, c)]), q.2.id = q.1 := by
    intro q hq
    split at hq
    · rcases List.mem_map.1 hq with ⟨q0, hq0, hmap⟩
      by_cases hk : (q0.1 == c.id) = true
      · rw [if_pos hk] at hmap
        have hq1 : q0.1 = c.id := by simpa using hk
        rw [← hmap]
        exact hq1.symm
      · rw [if_neg hk] at hmap
        rw [← hmap]
        exact h q0 hq0
    · rcases List.mem_append.1 hq with hq' | hq'
      · exact h q hq'
      · rcases List.mem_singleton.1 hq' with rfl
        rfl
  unfold cacheInsert CacheOK
  dsimp only
  set l := (if (cache.find? (fun p => p.1 == c.id)).isSome then
      cache.map (fun p => if p.1 == c.id then (p.1, c) else p)
    else cache ++ [(c.id, c)]) with hl
  intro p hp
  split at hp
  · exact key p (List.drop_subset _ _ hp)
  · exact key p hp

/-! ## Generic Redis read lemmas for the run specification -/

theorem redisGet_filter_none {r : Redis} {k : String} (p : REntry → Bool)
    (h : redisGet r k = none) : redisGet (r.filter p) k = none := by
  have hf := redisGet_eq_none_entry h
  have hf' : (r.filter p).find? (fun e => e.key == k) = none := by
    rw [List.find?_eq_none] at hf ⊢
    exact fun e he => hf e (List.mem_filter.1 he).1
  unfold redisGet
  rw [hf']
  rfl

theorem redisGet_remove_none {r : Redis} (k : String) {k' : String}
    (h : redisGet r k' = none) : redisGet (redisRemove r k) k' = none :=
  redisGet_filter_none _ h

theorem getConv_some_id {w : Weav} {cid : String} {c : Conv}
    (h : w.getConv cid = some c) : c.id = cid := by
  unfold Weav.getConv at h
  simpa using List.find?_some h

theorem getConv_some_mem {w : Weav} {cid : String} {c : Conv}
    (h : w.getConv cid = some c) : c ∈ w.convs := by
  unfold Weav.getConv at h
  exact List.mem_of_find?_eq_some h

theorem getConv_isSome_of_present {w : Weav} {x : String}
    (h : ∃ c ∈ w.convs, c.id = x) : w.getConv x ≠ none := by
  intro hn
  rcases h with ⟨c, hc, hid⟩
  exact (getConv_eq_none_iff.1 hn) c hc hid

theorem hierMainKey_ne_metaKey (z cid : String) :
    hierarchyMainKey z ≠ get_metadata_key cid := by
  unfold get_metadata_key
  exact (hash_key_ne_hierMainKey _ z).symm

/-! ## The three-tier read preserves the invariant -/

/-- The metadata read either leaves Redis unchanged or deletes the one
stale metadata key. -/
theorem gccm_redis (now : Nat) (r : Redis) (cid : String) :
    (get_cached_conversation_metadata now r cid).2 = r ∨
    (get_cached_conversation_metadata now r cid).2 =
      redisRemove r (get_metadata_key cid) := by
  unfold get_cached_conversation_metadata
  dsimp only
  cases hg : redisGet r (get_metadata_key cid) with
  | none => left; rfl
  | some v =>
    cases v with
    | metaVal m =>
      dsimp only
      by_cases hst : now - m.cachedAt > 86400
      · rw [if_pos hst]; right; rfl
      · rw [if_neg hst]; left; rfl
    | subList l => left; rfl
    | backPtr b => left; rfl
    | msgList l => left; rfl

/-- A metadata hit comes from the stored entry and leaves Redis
unchanged. -/
theorem gccm_some {now : Nat} {r : Redis} {cid : String} {m : MetaV}
    (h : (get_cached_conversation_metadata now r cid).1 = some m) :
    redisGet r (get_metadata_key cid) = some (RVal.metaVal m) ∧
    (get_cached_conversation_metadata now r cid).2 = r := by
  unfold get_cached_conversation_metadata at h ⊢
  dsimp only at h ⊢
  cases hg : redisGet r (get_metadata_key cid) with
  | none =>
    rw [hg] at h
    exact absurd h (by simp)
  | some v =>
    rw [hg] at h
    cases v with
    | metaVal m' =>
      dsimp only at h ⊢
      by_cases hst : now - m'.cachedAt > 86400
      · rw [if_pos hst] at h
        exact absurd h (by simp)
      · rw [if_neg hst] at h
        have hm : m' = m := by simpa using h
        subst hm
        refine ⟨rfl, ?_⟩
        rw [if_neg hst]
    | subList l => exact absurd h (by simp)
    | backPtr b => exact absurd h (by simp)
    | msgList l => exact absurd h (by simp)

/-- `get_conversation` preserves the invariant, never touches the
durable store, and leaves every hierarchy edge-set key unchanged. -/
theorem get_conversation_pres {M : String} {U : List String} (s : ChatState) (cid : String)
    (h : INV M U s) :
    INV M U (get_conversation s cid).2 ∧
    (get_conversation s cid).2.weaviate = s.weaviate ∧
    (∀ z, redisGet (get_conversation s cid).2.redis (hierarchyMainKey z) =
      redisGet s.redis (hierarchyMainKey z)) := by
  obtain ⟨hcv, hr, hl⟩ := h
  unfold get_conversation
  rcases hloc : get_cached_conversation s cid with _ | c
  · rcases hm : get_cached_conversation_metadata s.now s.redis cid with ⟨mo, r'⟩
    have hr' : r' = s.redis ∨ r' = redisRemove s.redis (get_metadata_key cid) := by
      have hd := gccm_redis s.now s.redis cid
      rw [hm] at hd
      exact hd
    have hrOK : RedisOK M U r' := by
      rcases hr' with rfl | rfl
      · exact hr
      · exact RedisOK_remove hr _
    have hrEq : ∀ z, redisGet r' (hierarchyMainKey z) =
        redisGet s.redis (hierarchyMainKey z) := by
      intro z
      rcases hr' with rfl | rfl
      · rfl
      · exact redisGet_remove_ne _ _ _ (hierMainKey_ne_metaKey z cid)
    rcases mo with _ | m
    · rcases hw : s.weaviate.getConv cid with _ | c
      · simp only [hm, hw]
        exact ⟨⟨hcv, hrOK, hl⟩, trivial, hrEq⟩
      · simp only [hm, hw]
        refine ⟨⟨hcv, ?_, CacheOK_insert c hl⟩, trivial, ?_⟩
        · refine RedisOK_setex hrOK (subEntryOK_metaVal _ _ _ _ _)
            (metaEntryOK_metaVal_intro _ _ ?_)
          intro hidM
          dsimp only at hidM
          rw [← getConv_some_id hw, hidM]
        · intro z
          exact (redisGet_setex_ne _ _ _ _ _ (hierMainKey_ne_metaKey z cid)).trans (hrEq z)
    · simp only [hm]
      exact ⟨⟨hcv, hrOK, CacheOK_insert _ hl⟩, trivial, hrEq⟩
  · simp only [hloc]
    exact ⟨⟨hcv, hr, hl⟩, trivial, fun z => trivial⟩

/-- Under the invariant, a read of any id other than `M` (from the
admissible universe) never produces a conversation object carrying
`M`'s id — so the deletion recursion never targets `M`. -/
theorem get_conversation_some_id {M : String} {U : List String} (hinj : Hinj M U)
    {s : ChatState} {cid : String} (h : INV M U s) (hU : cid ∈ U) (hne : cid ≠ M)
    {c : Conv} (hsome : (get_conversation s cid).1 = some c) : c.id ≠ M := by
  obtain ⟨hcv, hr, hl⟩ := h
  unfold get_conversation at hsome
  rcases hloc : get_cached_conversation s cid with _ | c0
  · rw [hloc] at hsome
    rcases hm : get_cached_conversation_metadata s.now s.redis cid with ⟨mo, r'⟩
    rw [hm] at hsome
    rcases mo with _ | m
    · rcases hw : s.weaviate.getConv cid with _ | c1
      · rw [hw] at hsome
        exact absurd hsome (by simp)
      · rw [hw] at hsome
        have hc : c1 = c := by simpa using hsome
        subst hc
        rw [getConv_some_id hw]
        exact hne
    · have hone : (⟨m.id, m.user_id, m.title, none, false⟩ : Conv) = c := by
        simpa using hsome
      have hget := (gccm_some (by rw [hm] : (get_cached_conversation_metadata
        s.now s.redis cid).1 = some m)).1
      rcases redisGet_eq_some_entry hget with ⟨e, hf, hv⟩
      have hmem := List.mem_of_find?_eq_some hf
      have hkey : e.key = get_metadata_key cid := by simpa using List.find?_some hf
      intro hidM
      rw [← hone] at hidM
      dsimp only at hidM
      have := metaEntryOK_elim (hr.2 e hmem) hv hidM
      rw [hkey] at this
      exact hinj cid hU hne this
  · rw [hloc] at hsome
    have hc : c0 = c := by simpa using hsome
    unfold get_cached_conversation at hloc
    cases hf : s.localCache.find? (fun p => p.1 == cid) with
    | none => rw [hf] at hloc; exact absurd hloc (by simp)
    | some p =>
      rw [hf] at hloc
      have hp2 : p.2 = c0 := by simpa using hloc
      have hmem := List.mem_of_find?_eq_some hf
      have hkey : p.1 = cid := by simpa using List.find?_some hf
      rw [← hc, ← hp2, hl p hmem, hkey]
      exact hne

/-- The parent walk preserves the invariant, never touches the durable
store, and leaves every hierarchy edge-set key unchanged. -/
theorem mainChatLoop_pres {M : String} {U : List String} (fuel : Nat) :
    ∀ (s : ChatState) (cur : Conv) (mid : String) (s2 : ChatState),
      mainChatLoop fuel s cur = some (mid, s2) → INV M U s →
      INV M U s2 ∧ s2.weaviate = s.weaviate ∧
      (∀ z, redisGet s2.redis (hierarchyMainKey z) =
        redisGet s.redis (hierarchyMainKey z)) := by
  induction fuel with
  | zero =>
    intro s cur mid s2 h
    exact absurd h (by simp [mainChatLoop])
  | succ fuel ih =>
    intro s cur mid s2 h hinv
    unfold mainChatLoop at h
    cases hp : cur.parent_id with
    | none =>
      rw [hp] at h
      simp only [Option.some.injEq, Prod.mk.injEq] at h
      rw [← h.2]
      exact ⟨hinv, rfl, fun z => rfl⟩
    | some pid =>
      rw [hp] at h
      dsimp only at h
      rcases hg : get_conversation s pid with ⟨copt, s1⟩
      rw [hg] at h
      obtain ⟨hI, hW, hH⟩ := get_conversation_pres (M := M) (U := U) s pid hinv
      rw [hg] at hI hW hH
      cases copt with
      | none =>
        simp only [Option.some.injEq, Prod.mk.injEq] at h
        rw [← h.2]
        exact ⟨hI, hW, hH⟩
      | some pc =>
        obtain ⟨hI2, hW2, hH2⟩ := ih s1 pc mid s2 h hI
        exact ⟨hI2, hW2.trans hW, fun z => (hH2 z).trans (hH z)⟩

/-- `_get_main_chat_id` preserves the invariant, never touches the
durable store, and leaves every hierarchy edge-set key unchanged. -/
theorem get_main_chat_id_pres {M : String} {U : List String} (fuel : Nat)
    (s : ChatState) (cid : String) (mid : String) (s2 : ChatState)
    (h : get_main_chat_id fuel s cid = some (mid, s2)) (hinv : INV M U s) :
    INV M U s2 ∧ s2.weaviate = s.weaviate ∧
    (∀ z, redisGet s2.redis (hierarchyMainKey z) =
      redisGet s.redis (hierarchyMainKey z)) := by
  unfold get_main_chat_id at h
  rcases hg : get_conversation s cid with ⟨copt, s1⟩
  rw [hg] at h
  obtain ⟨hI, hW, hH⟩ := get_conversation_pres (M := M) (U := U) s cid hinv
  rw [hg] at hI hW hH
  cases copt with
  | none =>
    simp only [Option.some.injEq, Prod.mk.injEq] at h
    rw [← h.2]
    exact ⟨hI, hW, hH⟩
  | some c =>
    obtain ⟨hI2, hW2, hH2⟩ := mainChatLoop_pres fuel s1 c mid s2 h hI
    exact ⟨hI2, hW2.trans hW, fun z => (hH2 z).trans (hH z)⟩

/-- `_get_all_sub_chats` preserves the invariant, never touches the
durable store, returns a descendant list avoiding `M` and inside `U`,
and changes no hierarchy edge-set key other than its own argument's. -/
theorem get_all_sub_chats_pres {M : String} {U : List String} (s : ChatState)
    (cid : String) (hinv : INV M U s) :
    INV M U (get_all_sub_chats s cid).2 ∧
    (get_all_sub_chats s cid).2.weaviate = s.weaviate ∧
    M ∉ (get_all_sub_chats s cid).1 ∧
    (∀ d ∈ (get_all_sub_chats s cid).1, d ∈ U) ∧
    (∀ z, z ≠ cid → redisGet (get_all_sub_chats s cid).2.redis (hierarchyMainKey z) =
      redisGet s.redis (hierarchyMainKey z)) := by
  obtain ⟨hcv, hr, hl⟩ := hinv
  unfold get_all_sub_chats
  dsimp only
  cases hg : redisGet s.redis (hierarchyMainKey cid) with
  | some v =>
    cases v with
    | subList l =>
      rcases redisGet_eq_some_entry hg with ⟨e, hf, hv⟩
      have hmem := List.mem_of_find?_eq_some hf
      have hsub := subEntryOK_elim (hr.1 e hmem) hv
      exact ⟨⟨hcv, hr, hl⟩, rfl, hsub.1, hsub.2, fun z _ => rfl⟩
    | backPtr b => exact ⟨⟨hcv, hr, hl⟩, rfl, by simp, by simp, fun z _ => rfl⟩
    | metaVal m => exact ⟨⟨hcv, hr, hl⟩, rfl, by simp, by simp, fun z _ => rfl⟩
    | msgList l => exact ⟨⟨hcv, hr, hl⟩, rfl, by simp, by simp, fun z _ => rfl⟩
  | none =>
    have hM : M ∉ (s.weaviate.subConvs cid).map (fun c => c.id) := by
      intro hM
      rcases List.mem_map.1 hM with ⟨c, hcsub, hcid⟩
      have hcc := List.mem_filter.1 hcsub
      have hpar : c.parent_id = some cid := by simpa using hcc.2
      have := hcv.1 c hcc.1 hcid
      rw [this] at hpar
      exact absurd hpar (by simp)
    have hU : ∀ d ∈ (s.weaviate.subConvs cid).map (fun c => c.id), d ∈ U := by
      intro d hd
      rcases List.mem_map.1 hd with ⟨c, hcsub, hcid⟩
      rw [← hcid]
      exact hcv.2 c (List.mem_filter.1 hcsub).1
    by_cases hemp : ((s.weaviate.subConvs cid).map (fun c => c.id)).isEmpty = true
    · rw [if_pos hemp]
      exact ⟨⟨hcv, hr, hl⟩, rfl, hM, hU, fun z _ => rfl⟩
    · rw [if_neg hemp]
      refine ⟨⟨hcv, ?_, hl⟩, rfl, hM, hU, ?_⟩
      · exact RedisOK_setex hr (subEntryOK_subList_intro _ _ hM hU)
          (metaEntryOK_subList _ _ _ _)
      · intro z hz
        exact redisGet_setex_ne _ _ _ _ _ (fun heq => hz (hierarchyMainKey_inj heq))

/-! ## The specification of `ConversationModel.delete` -/

/-- What one completed `ConversationModel.delete` run guarantees:
availability is untouched; conversation records are only removed; the
target's record is gone; every record removed by the run has its
deletion recorded; no rootless id other than the target is ever
deleted (children always carry a parent link); and the target's own
record deletion is recorded. -/
def MSpec (w : Weav) (cid : String) (w' : Weav) (ev : List Event) : Prop :=
  w'.available = w.available ∧
  (∀ c ∈ w'.convs, c ∈ w.convs) ∧
  (∀ c ∈ w'.convs, c.id ≠ cid) ∧
  (∀ x, (∀ c ∈ w'.convs, c.id ≠ x) → (∃ c ∈ w.convs, c.id = x) →
    Event.delConvRec x ∈ ev) ∧
  (∀ z, z ≠ cid → (∀ c ∈ w.convs, c.id = z → c.parent_id = none) →
    Event.delConvRec z ∉ ev) ∧
  Event.delConvRec cid ∈ ev

/-- The sub-conversation cascade of `ConversationModel.delete`, given
the specification of each recursive call. -/
theorem mdelFold_spec (fuel : Nat)
    (IH : ∀ (w : Weav) (cid : String) (w' : Weav) (ev : List Event),
      modelDelete fuel w cid = some (w', ev) → MSpec w cid w' ev) :
    ∀ (subs : List Conv) (wa : Weav) (eva : List Event) (w2 : Weav) (ev2 : List Event),
      subs.foldlM (fun (acc : Weav × List Event) sc =>
        (modelDelete fuel acc.1 sc.id).map (fun p => (p.1, acc.2 ++ p.2)))
        (wa, eva) = some (w2, ev2) →
      w2.available = wa.available ∧
      (∀ c ∈ w2.convs, c ∈ wa.convs) ∧
      ∃ evs, ev2 = eva ++ evs ∧
        (∀ x, (∀ c ∈ w2.convs, c.id ≠ x) → (∃ c ∈ wa.convs, c.id = x) →
          Event.delConvRec x ∈ evs) ∧
        (∀ z, (∀ c ∈ wa.convs, c.id = z → c.parent_id = none) →
          (∀ sc ∈ subs, sc.id ≠ z) → Event.delConvRec z ∉ evs) := by
  intro subs
  induction subs with
  | nil =>
    intro wa eva w2 ev2 h
    simp only [List.foldlM_nil, Option.pure_def, Option.some.injEq,
      Prod.mk.injEq] at h
    obtain ⟨h1, h2⟩ := h
    subst h1
    subst h2
    exact ⟨rfl, fun c hc => hc, [], by simp, by simp, by simp⟩
  | cons sc rest ih =>
    intro wa eva w2 ev2 h
    rw [List.foldlM_cons] at h
    cases hd : modelDelete fuel wa sc.id with
    | none => rw [hd] at h; simp at h
    | some p =>
      obtain ⟨w1, ev1⟩ := p
      rw [hd] at h
      have h' : rest.foldlM (fun (acc : Weav × List Event) sc =>
          (modelDelete fuel acc.1 sc.id).map (fun p => (p.1, acc.2 ++ p.2)))
          (w1, eva ++ ev1) = some (w2, ev2) := by
        simpa using h
      obtain ⟨hma, hmono, evs', hev, hrem, hnoM⟩ := ih w1 (eva ++ ev1) w2 ev2 h'
      obtain ⟨sma, smono, sgone, srem, snoM, sself⟩ := IH wa sc.id w1 ev1 hd
      refine ⟨hma.trans sma, fun c hc => smono c (hmono c hc),
        ev1 ++ evs', by rw [hev, List.append_assoc], ?_, ?_⟩
      · intro x hgone hpres
        by_cases hx : ∀ c ∈ w1.convs, c.id ≠ x
        · exact List.mem_append.2 (Or.inl (srem x hx hpres))
        · push_neg at hx
          rcases hx with ⟨c, hc, hcx⟩
          exact List.mem_append.2 (Or.inr (hrem x hgone ⟨c, hc, hcx⟩))
      · intro z hroot hns hmem
        rcases List.mem_append.1 hmem with hmem | hmem
        · exact snoM z (hns sc (by simp)).symm hroot hmem
        · exact hnoM z (fun c hc hcz => hroot c (smono c hc) hcz)
            (fun sc' hsc' => hns sc' (List.mem_cons_of_mem _ hsc')) hmem

/-- Every completed `ConversationModel.delete` run meets its
specification. -/
theorem modelDelete_MSpec (fuel : Nat) :
    ∀ (w : Weav) (cid : String) (w' : Weav) (ev : List Event),
      modelDelete fuel w cid = some (w', ev) → MSpec w cid w' ev := by
  induction fuel with
  | zero =>
    intro w cid w' ev h
    exact absurd h (by simp [modelDelete])
  | succ fuel ih =>
    intro w cid w' ev h
    unfold modelDelete at h
    dsimp only at h
    split at h
    next => exact absurd h (by simp)
    next w2 ev2 hf =>
      obtain ⟨hw', hev⟩ : w2.removeConv cid = w' ∧
          ev2 ++ [Event.delConvRec cid] = ev := by
        simpa using h
      subst hw'
      subst hev
      obtain ⟨hma, hmono, evs, hev2, hrem, hnoM⟩ := mdelFold_spec fuel ih _ _ _ _ _ hf
      have hconvs1 : ((w.msgsOf cid).foldl (fun acc m => acc.removeMsg m.id) w).convs
          = w.convs := foldl_removeMsg_convs _ _
      have hav1 : ((w.msgsOf cid).foldl (fun acc m => acc.removeMsg m.id) w).available
          = w.available := foldl_removeMsg_available _ _
      refine ⟨?_, ?_, ?_, ?_, ?_, ?_⟩
      · rw [removeConv_available, hma, hav1]
      · intro c hc
        have := hmono c (removeConv_mono hc)
        rw [hconvs1] at this
        exact this
      · intro c hc
        have := (List.mem_filter.1 hc).2
        simpa [bne] using this
      · intro x hgone hpres
        by_cases hx : x = cid
        · subst hx
          simp
        · have hgone2 : ∀ c ∈ w2.convs, c.id ≠ x := by
            intro c hc hcx
            refine hgone c (List.mem_filter.2 ⟨hc, ?_⟩) hcx
            simp [bne, hcx, hx]
          have hpres1 : ∃ c ∈ ((w.msgsOf cid).foldl
              (fun acc m => acc.removeMsg m.id) w).convs, c.id = x := by
            rw [hconvs1]
            exact hpres
          have := hrem x hgone2 hpres1
          rw [hev2]
          exact List.mem_append.2 (Or.inl (List.mem_append.2 (Or.inr this)))
      · intro z hz hroot hmem
        rw [hev2] at hmem
        rcases List.mem_append.1 hmem with hmem | hmem
        · rcases List.mem_append.1 hmem with hmem | hmem
          · rcases List.mem_map.1 hmem with ⟨m, _, hmm⟩
            exact absurd hmm (by simp)
          · refine hnoM z ?_ ?_ hmem
            · intro c hc hcz
              rw [hconvs1] at hc
              exact hroot c hc hcz
            · intro sc hsc hscz
              have hcc := List.mem_filter.1 hsc
              have hpar : sc.parent_id = some cid := by simpa using hcc.2
              have hmem1 : sc ∈ w.convs := by
                rw [← hconvs1]
                exact hcc.1
              have := hroot sc hmem1 hscz
              rw [this] at hpar
              exact absurd hpar (by simp)
        · have : z = cid := by simpa using hmem
          exact hz this
      · rw [hev2]
        simp

/-! ## The specification of a completed `delete_conversation` run -/

/-- What every completed recursive `delete_conversation` call (on an
available durable store, an invariant-satisfying state and an
admissible id) guarantees: it returns `True`; availability and the
invariant are preserved; durable conversation records are only
removed; the target's record is gone; every removed record's deletion
was recorded; when the target is not `M`, `M`'s record deletion is
never recorded and an absent edge-set key for `M` stays absent. -/
def RecOK (M : String) (U : List String)
    (rec : ChatState → String → Option (Bool × ChatState × List Event)) : Prop :=
  ∀ (s : ChatState) (cid : String) (b : Bool) (s' : ChatState) (tr : List Event),
    rec s cid = some (b, s', tr) →
    s.weaviate.available = true → INV M U s → cid ∈ U →
    b = true ∧ s'.weaviate.available = true ∧ INV M U s' ∧
    (∀ c ∈ s'.weaviate.convs, c ∈ s.weaviate.convs) ∧
    (∀ c ∈ s'.weaviate.convs, c.id ≠ cid) ∧
    (∀ x, (∀ c ∈ s'.weaviate.convs, c.id ≠ x) →
      (∃ c ∈ s.weaviate.convs, c.id = x) → Event.delConvRec x ∈ tr) ∧
    (cid ≠ M → Event.delConvRec M ∉ tr) ∧
    (cid ≠ M → redisGet s.redis (hierarchyMainKey M) = none →
      redisGet s'.redis (hierarchyMainKey M) = none)

/-- STEP 4 (the recursive deletion of every registered sub chat), given
the specification of the recursive call. -/
theorem deleteStep4_spec {M : String} {U : List String}
    {rec : ChatState → String → Option (Bool × ChatState × List Event)}
    (hrec : RecOK M U rec) :
    ∀ (subs : List String) (sa : ChatState) (eva : List Event)
      (s5 : ChatState) (ev4 : List Event),
      deleteStep4 rec subs (sa, eva) = some (s5, ev4) →
      sa.weaviate.available = true → INV M U sa →
      (∀ d ∈ subs, d ∈ U) → (∀ d ∈ subs, d ≠ M) →
      s5.weaviate.available = true ∧ INV M U s5 ∧
      (∀ c ∈ s5.weaviate.convs, c ∈ sa.weaviate.convs) ∧
      (∀ d ∈ subs, ∀ c ∈ s5.weaviate.convs, c.id ≠ d) ∧
      (∃ evs, ev4 = eva ++ evs ∧
        (∀ x, (∀ c ∈ s5.weaviate.convs, c.id ≠ x) →
          (∃ c ∈ sa.weaviate.convs, c.id = x) → Event.delConvRec x ∈ evs) ∧
        Event.delConvRec M ∉ evs) ∧
      (redisGet sa.redis (hierarchyMainKey M) = none →
        redisGet s5.redis (hierarchyMainKey M) = none) := by
  intro subs
  induction subs with
  | nil =>
    intro sa eva s5 ev4 h hav hinv _ _
    unfold deleteStep4 at h
    simp only [List.foldlM_nil, Option.pure_def, Option.some.injEq,
      Prod.mk.injEq] at h
    obtain ⟨h1, h2⟩ := h
    subst h1
    subst h2
    exact ⟨hav, hinv, fun c hc => hc, by simp, ⟨[], by simp, by simp, by simp⟩,
      fun hn => hn⟩
  | cons d rest ih =>
    intro sa eva s5 ev4 h hav hinv hU hM
    unfold deleteStep4 at h
    rw [List.foldlM_cons] at h
    cases hr : rec sa d with
    | none => rw [hr] at h; simp at h
    | some res =>
      obtain ⟨ok, s1, ev⟩ := res
      rw [hr] at h
      obtain ⟨hb, hav1, hinv1, hmono1, hgone1, hrem1, hnoM1, habs1⟩ :=
        hrec sa d ok s1 ev hr hav hinv (hU d (by simp))
      subst hb
      have h' : deleteStep4 rec rest (s1, eva ++ ev) = some (s5, ev4) := by
        unfold deleteStep4
        simpa using h
      obtain ⟨hav5, hinv5, hmono5, hgone5, ⟨evs', hev4, hrem5, hnoM5⟩, habs5⟩ :=
        ih s1 (eva ++ ev) s5 ev4 h' hav1 hinv1
          (fun d' hd' => hU d' (List.mem_cons_of_mem _ hd'))
          (fun d' hd' => hM d' (List.mem_cons_of_mem _ hd'))
      have hdM : d ≠ M := hM d (by simp)
      refine ⟨hav5, hinv5, fun c hc => hmono1 c (hmono5 c hc), ?_,
        ⟨ev ++ evs', by rw [hev4, List.append_assoc], ?_, ?_⟩, ?_⟩
      · intro d' hd' c hc
        rcases List.mem_cons.1 hd' with rfl | hd''
        · exact hgone1 c (hmono5 c hc)
        · exact hgone5 d' hd'' c hc
      · intro x hgone hpres
        by_cases hx : ∀ c ∈ s1.weaviate.convs, c.id ≠ x
        · exact List.mem_append.2 (Or.inl (hrem1 x hx hpres))
        · push_neg at hx
          rcases hx with ⟨c, hc, hcx⟩
          exact List.mem_append.2 (Or.inr (hrem5 x hgone ⟨c, hc, hcx⟩))
      · intro hmem
        rcases List.mem_append.1 hmem with hmem | hmem
        · exact hnoM1 hdM hmem
        · exact hnoM5 hmem
      · intro habs
        exact habs5 (habs1 hdM habs)

/-- The final owner-key purge preserves the entry invariants. -/
theorem uidPurge_RedisOK {M : String} {U : List String} {r : Redis}
    (uid : Option String) (h : RedisOK M U r) :
    RedisOK M U (match uid with
      | some u => purgeKeys r (fun k => containsStr k u)
      | none => r) := by
  cases uid with
  | none => exact h
  | some u => exact RedisOK_purge h _

/-- The final owner-key purge keeps an absent key absent. -/
theorem uidPurge_none {r : Redis} {K : String} (uid : Option String)
    (h : redisGet r K = none) :
    redisGet (match uid with
      | some u => purgeKeys r (fun k => containsStr k u)
      | none => r) K = none := by
  cases uid with
  | none => exact h
  | some u => exact purgeKeys_none_mono _ _ _ h

/-- STEP 8/9 (the verification re-read, the forced deletion of any
remaining record and messages, and the final owner-key purge). -/
theorem deleteStep89_full {M : String} {U : List String} (cid : String)
    (uid : Option String) (s7 : ChatState) (ev6 : List Event)
    {b : Bool} {s9' : ChatState} {tr : List Event}
    (h : deleteStep89 cid uid s7 ev6 = (b, s9', tr))
    (hinv : INV M U s7) (hav : s7.weaviate.available = true) :
    b = true ∧ s9'.weaviate.available = true ∧ INV M U s9' ∧
    (∀ c ∈ s9'.weaviate.convs, c ∈ s7.weaviate.convs) ∧
    (∀ c ∈ s9'.weaviate.convs, c.id ≠ cid) ∧
    (∃ ev8, tr = ev6 ++ ev8 ∧
      (∀ z, Event.delConvRec z ∈ ev8 → z = cid) ∧
      (∀ x, (∀ c ∈ s9'.weaviate.convs, c.id ≠ x) →
        (∃ c ∈ s7.weaviate.convs, c.id = x) → Event.delConvRec x ∈ ev8)) ∧
    (redisGet s7.redis (hierarchyMainKey M) = none →
      redisGet s9'.redis (hierarchyMainKey M) = none) := by
  unfold deleteStep89 at h
  rcases hv : get_conversation s7 cid with ⟨verifOpt, s8⟩
  rw [hv] at h
  dsimp only at h
  obtain ⟨hI8, hW8, hH8⟩ := get_conversation_pres (M := M) (U := U) s7 cid hinv
  rw [hv] at hI8 hW8 hH8
  have hI8' : INV M U s8 := hI8
  have hW8' : s8.weaviate = s7.weaviate := hW8
  have hH8' : ∀ z, redisGet s8.redis (hierarchyMainKey z) =
      redisGet s7.redis (hierarchyMainKey z) := hH8
  obtain ⟨hcv8, hr8, hl8⟩ := hI8'
  cases hgc : s8.weaviate.getConv cid with
  | some c0 =>
    rw [hgc] at h
    dsimp only at h
    obtain ⟨hb, hst, htr⟩ : true = b ∧ _ = s9' ∧ _ = tr := by
      simpa using h
    subst hb
    subst hst
    subst htr
    have hconvs : (((s8.weaviate.removeConv cid).msgsOf cid).foldl
        (fun acc m => acc.removeMsg m.id) (s8.weaviate.removeConv cid)).convs =
        (s8.weaviate.removeConv cid).convs := foldl_removeMsg_convs _ _
    refine ⟨rfl, ?_, ⟨?_, uidPurge_RedisOK uid hr8, hl8⟩, ?_, ?_, ?_, ?_⟩
    · rw [foldl_removeMsg_available, removeConv_available, hW8', hav]
    · refine ConvsOK_mono hcv8 ?_
      intro c hc
      rw [hconvs] at hc
      exact removeConv_mono hc
    · intro c hc
      rw [hconvs] at hc
      rw [← hW8']
      exact removeConv_mono hc
    · intro c hc
      rw [hconvs] at hc
      have := (List.mem_filter.1 hc).2
      simpa [bne] using this
    · refine ⟨[Event.delConvRec cid] ++
        ((s8.weaviate.removeConv cid).msgsOf cid).map
          (fun m => Event.delMsgRec m.id), rfl, ?_, ?_⟩
      · intro z hz
        rcases List.mem_append.1 hz with hz | hz
        · exact by simpa using hz
        · rcases List.mem_map.1 hz with ⟨m, _, hm⟩
          exact absurd hm (by simp)
      · intro x hgone hpres
        by_cases hx : x = cid
        · subst hx
          simp
        · exfalso
          rcases hpres with ⟨c, hc, hcx⟩
          refine hgone c ?_ hcx
          rw [hconvs]
          refine List.mem_filter.2 ⟨?_, ?_⟩
          · rw [hW8']
            exact hc
          · simp [bne, hcx, hx]
    · intro habs
      exact uidPurge_none uid ((hH8' M).trans habs)
  | none =>
    rw [hgc] at h
    dsimp only at h
    obtain ⟨hb, hst, htr⟩ : true = b ∧ _ = s9' ∧ _ = tr := by
      simpa using h
    subst hb
    subst hst
    subst htr
    have hgone8 : ∀ c ∈ s8.weaviate.convs, c.id ≠ cid := getConv_eq_none_iff.1 hgc
    have hconvs : ((s8.weaviate.msgsOf cid).foldl
        (fun acc m => acc.removeMsg m.id) s8.weaviate).convs =
        s8.weaviate.convs := foldl_removeMsg_convs _ _
    refine ⟨rfl, ?_, ⟨?_, uidPurge_RedisOK uid hr8, hl8⟩, ?_, ?_, ?_, ?_⟩
    · rw [foldl_removeMsg_available, hW8', hav]
    · refine ConvsOK_mono hcv8 ?_
      intro c hc
      rw [hconvs] at hc
      exact hc
    · intro c hc
      rw [hconvs] at hc
      rw [← hW8']
      exact hc
    · intro c hc
      rw [hconvs] at hc
      exact hgone8 c hc
    · refine ⟨[] ++ (s8.weaviate.msgsOf cid).map (fun m => Event.delMsgRec m.id),
        rfl, ?_, ?_⟩
      · intro z hz
        rcases List.mem_append.1 hz with hz | hz
        · exact absurd hz (by simp)
        · rcases List.mem_map.1 hz with ⟨m, _, hm⟩
          exact absurd hm (by simp)
      · intro x hgone hpres
        exfalso
        rcases hpres with ⟨c, hc, hcx⟩
        refine hgone c ?_ hcx
        rw [hconvs, hW8']
        exact hc
    · intro habs
      exact uidPurge_none uid ((hH8' M).trans habs)

/-- STEPs 1–9 of the main deletion path, given the specifications of
the recursive call and of `ConversationModel.delete`. -/
theorem deleteAfterResolve_full {M : String} {U : List String}
    {rec : ChatState → String → Option (Bool × ChatState × List Event)}
    {mdel : Weav → String → Option (Weav × List Event)}
    (hrec : RecOK M U rec)
    (hmdel : ∀ (w : Weav) (cid : String) (w' : Weav) (ev : List Event),
      mdel w cid = some (w', ev) → MSpec w cid w' ev)
    (cid : String) (convOpt : Option Conv) (uid : Option String)
    (main : String) (subIds : List String) (s3 : ChatState)
    {b : Bool} {s' : ChatState} {tr : List Event}
    (h : deleteAfterResolve rec mdel cid convOpt uid main subIds s3 = some (b, s', tr))
    (hav : s3.weaviate.available = true) (hinv : INV M U s3)
    (hsubU : ∀ d ∈ subIds, d ∈ U) (hsubM : ∀ d ∈ subIds, d ≠ M) :
    b = true ∧ s'.weaviate.available = true ∧ INV M U s' ∧
    (∀ c ∈ s'.weaviate.convs, c ∈ s3.weaviate.convs) ∧
    (∀ c ∈ s'.weaviate.convs, c.id ≠ cid) ∧
    (∀ d ∈ subIds, ∀ c ∈ s'.weaviate.convs, c.id ≠ d) ∧
    (∃ ev1 evs mdev ev8,
      tr = (ev1 ++ evs) ++ (mdev ++ ev8) ∧
      (∀ d ∈ subIds, (∃ c ∈ s3.weaviate.convs, c.id = d) →
        Event.delConvRec d ∈ ev1 ++ evs) ∧
      Event.delConvRec M ∉ ev1 ++ evs ∧
      (∀ c1, convOpt = some c1 → Event.delConvRec c1.id ∈ mdev ∧
        (c1.id ≠ M → Event.delConvRec M ∉ mdev)) ∧
      (convOpt = none → mdev = []) ∧
      (∀ z, Event.delConvRec z ∈ ev8 → z = cid) ∧
      (∀ x, (∀ c ∈ s'.weaviate.convs, c.id ≠ x) →
        (∃ c ∈ s3.weaviate.convs, c.id = x) → Event.delConvRec x ∈ tr)) ∧
    (redisGet s3.redis (hierarchyMainKey M) = none →
      redisGet s'.redis (hierarchyMainKey M) = none) ∧
    (relatedKey cid (some main) uid (hierarchyMainKey M) = true →
      redisGet s'.redis (hierarchyMainKey M) = none) := by
  unfold deleteAfterResolve at h
  dsimp only at h
  set P := relatedKey cid (some main) uid with hP
  set w4 := (s3.weaviate.msgsOf cid).foldl (fun acc m => acc.removeMsg m.id)
    s3.weaviate with hw4
  set ev1 := (s3.weaviate.msgsOf cid).map (fun m => Event.delMsgRec m.id) with hev1
  set r5 := purgeKeys (purgeKeys s3.redis P) P with hr5
  set σ4 : ChatState := { s3 with weaviate := w4, redis := r5 } with hσ4
  split at h
  next => exact absurd h (by simp)
  next s5 ev4 heq4 =>
    split at h
    next => exact absurd h (by simp)
    next s7 ev6 heq67 =>
      have h89 : deleteStep89 cid uid s7 ev6 = (b, s', tr) := by simpa using h
      have hσ4av : σ4.weaviate.available = true := by
        rw [hσ4]
        dsimp only
        rw [hw4, foldl_removeMsg_available]
        exact hav
      have hσ4convs : σ4.weaviate.convs = s3.weaviate.convs := by
        rw [hσ4]
        dsimp only
        rw [hw4, foldl_removeMsg_convs]
      have hσ4redis : σ4.redis = r5 := by rw [hσ4]
      obtain ⟨hcv3, hr3, hl3⟩ := hinv
      have hσ4inv : INV M U σ4 := by
        refine ⟨?_, ?_, ?_⟩
        · refine ConvsOK_mono hcv3 ?_
          intro c hc
          rw [hσ4convs] at hc
          exact hc
        · rw [hσ4redis, hr5]
          exact RedisOK_purge (RedisOK_purge hr3 _) _
        · rw [hσ4]
          exact hl3
      obtain ⟨hav5, hinv5, hmono5, hgone5, ⟨evs, hev4, hrem5, hnoM5⟩, habs5⟩ :=
        deleteStep4_spec hrec subIds σ4 ev1 s5 ev4 heq4 hσ4av hσ4inv hsubU hsubM
      have hpack67 : ∃ mdev, ev6 = ev4 ++ mdev ∧ s7.localCache = [] ∧
          s7.redis = s5.redis ∧
          s7.weaviate.available = s5.weaviate.available ∧
          (∀ c ∈ s7.weaviate.convs, c ∈ s5.weaviate.convs) ∧
          (∀ x, (∀ c ∈ s7.weaviate.convs, c.id ≠ x) →
            (∃ c ∈ s5.weaviate.convs, c.id = x) → Event.delConvRec x ∈ mdev) ∧
          (∀ c1, convOpt = some c1 → Event.delConvRec c1.id ∈ mdev ∧
            (c1.id ≠ M → Event.delConvRec M ∉ mdev)) ∧
          (convOpt = none → mdev = []) := by
        cases convOpt with
        | none =>
          unfold deleteStep67 at heq67
          obtain ⟨hs7, hev6⟩ : ({ s5 with localCache := [] } : ChatState) = s7 ∧
              ev4 = ev6 := by
            simpa using heq67
          subst hs7
          subst hev6
          refine ⟨[], by simp, rfl, rfl, rfl, fun c hc => hc, ?_, ?_, fun _ => rfl⟩
          · intro x hgone hpres
            exfalso
            rcases hpres with ⟨c, hc, hcx⟩
            exact hgone c hc hcx
          · intro c1 hc1
            exact absurd hc1 (by simp)
        | some c1 =>
          unfold deleteStep67 at heq67
          dsimp only at heq67
          cases hm : mdel s5.weaviate c1.id with
          | none => rw [hm] at heq67; simp at heq67
          | some p =>
            obtain ⟨w7, mdev⟩ := p
            rw [hm] at heq67
            obtain ⟨hs7, hev6⟩ : ({ s5 with localCache := [], weaviate := w7 } :
                ChatState) = s7 ∧ ev4 ++ mdev = ev6 := by
              simpa using heq67
            subst hs7
            subst hev6
            obtain ⟨mav, mmono, mgone, mrem, mnoM, mself⟩ :=
              hmdel s5.weaviate c1.id w7 mdev hm
            refine ⟨mdev, rfl, rfl, rfl, mav, mmono, mrem, ?_, ?_⟩
            · intro c1' hc1'
              have hcc : c1' = c1 := by
                have := hc1'.symm
                simpa using this
              subst hcc
              refine ⟨mself, ?_⟩
              intro hne
              exact mnoM M (Ne.symm hne) hinv5.1.1
            · intro hnone
              exact absurd hnone (by simp)
      obtain ⟨mdev, hev6, hcache7, hredis7, hav7eq, hmono7, hrem7, hcopt7, hnone7⟩ :=
        hpack67
      have hav7 : s7.weaviate.available = true := by
        rw [hav7eq]
        exact hav5
      have hinv7 : INV M U s7 := by
        refine ⟨ConvsOK_mono hinv5.1 hmono7, ?_, ?_⟩
        · rw [hredis7]
          exact hinv5.2.1
        · rw [hcache7]
          intro p hp
          exact absurd hp (List.not_mem_nil p)
      obtain ⟨hb, hav9, hinv9, hmono9, hgone9, ⟨ev8, htr, hz8, hrem9⟩, habs9⟩ :=
        deleteStep89_full cid uid s7 ev6 h89 hinv7 hav7
      subst hb
      refine ⟨rfl, hav9, hinv9, ?_, hgone9, ?_, ?_, ?_, ?_⟩
      · intro c hc
        have hmm := hmono5 c (hmono7 c (hmono9 c hc))
        rw [hσ4convs] at hmm
        exact hmm
      · intro d hd c hc
        exact hgone5 d hd c (hmono7 c (hmono9 c hc))
      · refine ⟨ev1, evs, mdev, ev8, ?_, ?_, ?_, hcopt7, hnone7, hz8, ?_⟩
        · rw [htr, hev6, hev4]
          simp [List.append_assoc]
        · intro d hd hpres
          have hpresσ : ∃ c ∈ σ4.weaviate.convs, c.id = d := by
            rw [hσ4convs]
            exact hpres
          exact List.mem_append.2 (Or.inr (hrem5 d (hgone5 d hd) hpresσ))
        · intro hmem
          rcases List.mem_append.1 hmem with hmem | hmem
          · rw [hev1] at hmem
            rcases List.mem_map.1 hmem with ⟨m, _, hm⟩
            exact absurd hm (by simp)
          · exact hnoM5 hmem
        · intro x hgone hpres
          have hpresσ : ∃ c ∈ σ4.weaviate.convs, c.id = x := by
            rw [hσ4convs]
            exact hpres
          rw [htr, hev6, hev4]
          by_cases h5 : ∀ c ∈ s5.weaviate.convs, c.id ≠ x
          · exact List.mem_append.2 (Or.inl (List.mem_append.2 (Or.inl
              (List.mem_append.2 (Or.inr (hrem5 x h5 hpresσ))))))
          · push_neg at h5
            rcases h5 with ⟨c, hc, hcx⟩
            by_cases h7 : ∀ c ∈ s7.weaviate.convs, c.id ≠ x
            · exact List.mem_append.2 (Or.inl (List.mem_append.2 (Or.inr
                (hrem7 x h7 ⟨c, hc, hcx⟩))))
            · push_neg at h7
              rcases h7 with ⟨c', hc', hcx'⟩
              exact List.mem_append.2 (Or.inr (hrem9 x hgone ⟨c', hc', hcx'⟩))
      · intro habs
        refine habs9 ?_
        rw [hredis7]
        refine habs5 ?_
        rw [hσ4redis, hr5]
        exact purgeKeys_none_mono _ _ _ (purgeKeys_none_mono _ _ _ habs)
      · intro hPkey
        refine habs9 ?_
        rw [hredis7]
        refine habs5 ?_
        rw [hσ4redis, hr5]
        exact purgeKeys_none_mono _ _ _ (purgeKeys_get_none _ _ _ hPkey)

/-- Every completed `delete_conversation` run on an available durable
store meets the recursive-call specification `RecOK` (proved by fuel
induction: the STEP 4 recursion runs at smaller fuel). -/
theorem delete_conversation_DSpec {M : String} {U : List String}
    (hinj : Hinj M U) (fuel : Nat) :
    RecOK M U (delete_conversation fuel) := by
  induction fuel with
  | zero =>
    intro s cid b s' tr h
    exact absurd h (by simp [delete_conversation])
  | succ fuel ih =>
    intro s cid b s' tr h hav hinv hU
    rw [show delete_conversation (fuel + 1) s cid =
        (let (convOpt, s1) := get_conversation s cid
         let user_id := convOpt.map (·.user_id)
         if !s1.weaviate.available then
           let r2 := purgeKeys s1.redis (relatedKey cid none user_id)
           some (true, { s1 with redis := r2, localCache := [] }, [])
         else
           match get_main_chat_id fuel s1 cid with
           | none => none
           | some (main_chat_id, s2) =>
             let (sub_chat_ids, s3) :=
               if cid == main_chat_id then get_all_sub_chats s2 cid else ([], s2)
             deleteAfterResolve (delete_conversation fuel) (modelDelete fuel)
               cid convOpt user_id main_chat_id sub_chat_ids s3) from rfl] at h
    rcases hg : get_conversation s cid with ⟨convOpt, s1⟩
    rw [hg] at h
    dsimp only at h
    obtain ⟨hI1, hW1, hH1⟩ := get_conversation_pres (M := M) (U := U) s cid hinv
    rw [hg] at hI1 hW1 hH1
    have hI1' : INV M U s1 := hI1
    have hW1' : s1.weaviate = s.weaviate := hW1
    have hH1' : ∀ z, redisGet s1.redis (hierarchyMainKey z) =
        redisGet s.redis (hierarchyMainKey z) := hH1
    have hav1 : s1.weaviate.available = true := by rw [hW1']; exact hav
    have hcond : (!s1.weaviate.available) = false := by simp [hav1]
    rw [hcond] at h
    simp only [Bool.false_eq_true, if_false] at h
    cases hm : get_main_chat_id fuel s1 cid with
    | none => rw [hm] at h; exact absurd h (by simp)
    | some p =>
      obtain ⟨main, s2⟩ := p
      rw [hm] at h
      dsimp only at h
      obtain ⟨hI2, hW2, hH2⟩ := get_main_chat_id_pres fuel s1 cid main s2 hm hI1'
      have hav2 : s2.weaviate.available = true := by rw [hW2]; exact hav1
      have hcopt : ∀ c1, convOpt = some c1 → cid ≠ M → c1.id ≠ M := by
        intro c1 hc1 hne
        refine get_conversation_some_id hinj hinv hU hne (c := c1) ?_
        rw [hg, hc1]
      by_cases hcm : (cid == main) = true
      · simp only [hcm, if_true] at h
        rcases hsub : get_all_sub_chats s2 cid with ⟨subIds, s3⟩
        simp only [hsub] at h
        obtain ⟨hI3r, hW3r, hMnotr, hUsubr, hH3r⟩ :=
          get_all_sub_chats_pres (M := M) (U := U) s2 cid hI2
        rw [hsub] at hI3r hW3r hMnotr hUsubr hH3r
        have hI3 : INV M U s3 := hI3r
        have hW3 : s3.weaviate = s2.weaviate := hW3r
        have hMnot : M ∉ subIds := hMnotr
        have hUsub : ∀ d ∈ subIds, d ∈ U := hUsubr
        have hH3 : ∀ z, z ≠ cid → redisGet s3.redis (hierarchyMainKey z) =
            redisGet s2.redis (hierarchyMainKey z) := hH3r
        have hav3 : s3.weaviate.available = true := by rw [hW3]; exact hav2
        have hsubM : ∀ d ∈ subIds, d ≠ M := by
          intro d hd hdM
          exact hMnot (hdM ▸ hd)
        obtain ⟨hb, hav', hinv', hmono', hgone', hgoneSub',
            ⟨ev1, evs, mdev, ev8, htr, hDev, hnoMa, hcopt', hnone', hz8, hrem'⟩,
            habs', habsP'⟩ :=
          deleteAfterResolve_full ih (modelDelete_MSpec fuel) cid convOpt
            (convOpt.map (fun c => c.user_id)) main subIds s3 h hav3 hI3 hUsub hsubM
        have hweq : s3.weaviate = s.weaviate := by rw [hW3, hW2, hW1']
        refine ⟨hb, hav', hinv', ?_, hgone', ?_, ?_, ?_⟩
        · intro c hc
          have hmm := hmono' c hc
          rw [hweq] at hmm
          exact hmm
        · intro x hgone hpres
          refine hrem' x hgone ?_
          rw [hweq]
          exact hpres
        · intro hne hmem
          rw [htr] at hmem
          rcases List.mem_append.1 hmem with hmem | hmem
          · exact hnoMa hmem
          · rcases List.mem_append.1 hmem with hmem | hmem
            · cases hco : convOpt with
              | none =>
                rw [hnone' hco] at hmem
                exact absurd hmem (List.not_mem_nil _)
              | some c1 =>
                exact (hcopt' c1 hco).2 (hcopt c1 hco hne) hmem
            · exact hne (hz8 M hmem).symm
        · intro hne habs
          refine habs' ?_
          rw [hH3 M (Ne.symm hne), hH2 M, hH1' M]
          exact habs
      · simp only [hcm, Bool.false_eq_true, if_false] at h
        obtain ⟨hb, hav', hinv', hmono', hgone', hgoneSub',
            ⟨ev1, evs, mdev, ev8, htr, hDev, hnoMa, hcopt', hnone', hz8, hrem'⟩,
            habs', habsP'⟩ :=
          deleteAfterResolve_full ih (modelDelete_MSpec fuel) cid convOpt
            (convOpt.map (fun c => c.user_id)) main [] s2 h hav2 hI2
            (by simp) (by simp)
        have hweq : s2.weaviate = s.weaviate := by rw [hW2, hW1']
        refine ⟨hb, hav', hinv', ?_, hgone', ?_, ?_, ?_⟩
        · intro c hc
          have hmm := hmono' c hc
          rw [hweq] at hmm
          exact hmm
        · intro x hgone hpres
          refine hrem' x hgone ?_
          rw [hweq]
          exact hpres
        · intro hne hmem
          rw [htr] at hmem
          rcases List.mem_append.1 hmem with hmem | hmem
          · exact hnoMa hmem
          · rcases List.mem_append.1 hmem with hmem | hmem
            · cases hco : convOpt with
              | none =>
                rw [hnone' hco] at hmem
                exact absurd hmem (List.not_mem_nil _)
              | some c1 =>
                exact (hcopt' c1 hco).2 (hcopt c1 hco hne) hmem
            · exact hne (hz8 M hmem).symm
        · intro hne habs
          refine habs' ?_
          rw [hH2 M, hH1' M]
          exact habs

/-- C1 (amended): deleting a main chat `M` whose registered descendant
set is `D` completes with `True`; afterwards `listDescendants(M)` is
empty and `M`'s and every descendant's durable record is gone, with
every descendant's record deletion recorded strictly before `M`'s own
record deletion; but descendants need not be unreadable in every tier —
their hash-named distributed-cache metadata survives the substring
purges, so a later read can still return them (see the
counterexample). -/
theorem c1_cascade_delete (M : String) (U D : List String) (fuel : Nat)
    (s : ChatState) (b : Bool) (s' : ChatState) (tr : List Event) (cM : Conv)
    (hrun : delete_conversation fuel s M = some (b, s', tr))
    (hav : s.weaviate.available = true)
    (hcache : s.localCache = [])
    (hMnometa : ∀ m : MetaV,
      redisGet s.redis (get_metadata_key M) ≠ some (RVal.metaVal m))
    (hweav : s.weaviate.getConv M = some cM)
    (hD : redisGet s.redis (hierarchyMainKey M) = some (RVal.subList D))
    (hDweav : ∀ d ∈ D, ∃ c ∈ s.weaviate.convs, c.id = d)
    (hchild : ∀ c ∈ s.weaviate.convs, c.parent_id = some M → c.id ∈ D)
    (hinv : INV M U s) (hinj : Hinj M U) :
    b = true ∧
    (get_all_sub_chats s' M).1 = [] ∧
    (∀ c ∈ s'.weaviate.convs, c.id ≠ M) ∧
    (∀ d ∈ D, ∀ c ∈ s'.weaviate.convs, c.id ≠ d) ∧
    (∃ tra trb, tr = tra ++ trb ∧
      (∀ d ∈ D, Event.delConvRec d ∈ tra) ∧
      Event.delConvRec M ∉ tra ∧ Event.delConvRec M ∈ trb) := by
  have hcMid : cM.id = M := getConv_some_id hweav
  have hcMmem : cM ∈ s.weaviate.convs := getConv_some_mem hweav
  cases fuel with
  | zero => exact absurd hrun (by simp [delete_conversation])
  | succ fuel1 =>
    rw [show delete_conversation (fuel1 + 1) s M =
        (let (convOpt, s1) := get_conversation s M
         let user_id := convOpt.map (·.user_id)
         if !s1.weaviate.available then
           let r2 := purgeKeys s1.redis (relatedKey M none user_id)
           some (true, { s1 with redis := r2, localCache := [] }, [])
         else
           match get_main_chat_id fuel1 s1 M with
           | none => none
           | some (main_chat_id, s2) =>
             let (sub_chat_ids, s3) :=
               if M == main_chat_id then get_all_sub_chats s2 M else ([], s2)
             deleteAfterResolve (delete_conversation fuel1) (modelDelete fuel1)
               M convOpt user_id main_chat_id sub_chat_ids s3) from rfl] at hrun
    have hloc : get_cached_conversation s M = none := by
      simp [get_cached_conversation, hcache]
    have hmeta : get_cached_conversation_metadata s.now s.redis M =
        (none, s.redis) := by
      unfold get_cached_conversation_metadata
      dsimp only
      cases hmg : redisGet s.redis (get_metadata_key M) with
      | none => rfl
      | some v =>
        cases v with
        | metaVal m => exact absurd hmg (hMnometa m)
        | subList l => rfl
        | backPtr bp => rfl
        | msgList l => rfl
    have hgc : get_conversation s M = (some cM,
        { s with
            redis := cache_conversation_metadata s.now s.redis M
              ⟨cM.id, cM.user_id, cM.title, 0⟩,
            localCache := cacheInsert s.localCache cM }) := by
      unfold get_conversation
      rw [hloc, hmeta, hweav]
    rw [hgc] at hrun
    dsimp only at hrun
    set s1 : ChatState := { s with
        redis := cache_conversation_metadata s.now s.redis M
          ⟨cM.id, cM.user_id, cM.title, 0⟩,
        localCache := cacheInsert s.localCache cM } with hs1
    have hs1w : s1.weaviate = s.weaviate := by rw [hs1]
    have hs1cache : s1.localCache = [(M, cM)] := by
      rw [hs1]
      dsimp only
      rw [hcache]
      simp [cacheInsert, hcMid]
    have hs1redis : s1.redis = redisSetex s.redis (get_metadata_key M)
        metadata_ttl (RVal.metaVal ⟨cM.id, cM.user_id, cM.title, s.now⟩) := by
      rw [hs1]
      rfl
    have hav1 : s1.weaviate.available = true := by
      rw [hs1w]
      exact hav
    have hcond : (!s1.weaviate.available) = false := by
      rw [hav1]
      rfl
    rw [hcond] at hrun
    simp only [Bool.false_eq_true, if_false] at hrun
    have hloc1 : get_cached_conversation s1 M = some cM := by
      unfold get_cached_conversation
      rw [hs1cache]
      simp
    have hgc1 : get_conversation s1 M = (some cM, s1) := by
      unfold get_conversation
      rw [hloc1]
    cases fuel1 with
    | zero =>
      have hnone : get_main_chat_id 0 s1 M = none := by
        unfold get_main_chat_id
        rw [hgc1]
        rfl
      rw [hnone] at hrun
      exact absurd hrun (by simp)
    | succ fuel2 =>
      have hroot : cM.parent_id = none := hinv.1.1 cM hcMmem hcMid
      have hwalk : get_main_chat_id (fuel2 + 1) s1 M = some (M, s1) := by
        unfold get_main_chat_id
        rw [hgc1]
        unfold mainChatLoop
        rw [hroot, hcMid]
      rw [hwalk] at hrun
      dsimp only at hrun
      rw [show (M == M) = true by simp] at hrun
      simp only [if_true] at hrun
      have hsubred : redisGet s1.redis (hierarchyMainKey M) =
          some (RVal.subList D) := by
        rw [hs1redis, redisGet_setex_ne _ _ _ _ _ (hierMainKey_ne_metaKey M M)]
        exact hD
      have hsub : get_all_sub_chats s1 M = (D, s1) := by
        unfold get_all_sub_chats
        dsimp only
        rw [hsubred]
      simp only [hsub] at hrun
      obtain ⟨hcv, hr, hl⟩ := hinv
      have hinv1 : INV M U s1 := by
        refine ⟨?_, ?_, ?_⟩
        · rw [hs1w]
          exact hcv
        · rw [hs1redis]
          exact RedisOK_setex hr (subEntryOK_metaVal _ _ _ _ _)
            (metaEntryOK_metaVal_intro _ _ (fun _ => rfl))
        · rw [hs1cache]
          intro p hp
          rcases List.mem_singleton.1 hp with rfl
          exact hcMid
      rcases redisGet_eq_some_entry hD with ⟨e, hf, hv⟩
      have hDok := subEntryOK_elim (hr.1 e (List.mem_of_find?_eq_some hf)) hv
      have hDU : ∀ d ∈ D, d ∈ U := hDok.2
      have hDM : ∀ d ∈ D, d ≠ M := fun d hd hdM => hDok.1 (hdM ▸ hd)
      obtain ⟨hb, hav', hinv', hmono', hgone', hgoneSub',
          ⟨ev1, evs, mdev, ev8, htr, hDev, hnoMa, hcopt', hnone', hz8, hrem'⟩,
          habs', habsP'⟩ :=
        deleteAfterResolve_full (delete_conversation_DSpec hinj (fuel2 + 1))
          (modelDelete_MSpec (fuel2 + 1)) M (some cM) _ M D s1 hrun hav1 hinv1
          hDU hDM
      have habsfin : redisGet s'.redis (hierarchyMainKey M) = none :=
        habsP' (relatedKey_hierMain M _ _)
      refine ⟨hb, ?_, hgone', hgoneSub', ?_⟩
      · have hsubempty : s'.weaviate.subConvs M = [] := by
          unfold Weav.subConvs
          rw [List.filter_eq_nil_iff]
          intro c hc hp
          have hpar : c.parent_id = some M := by simpa using hp
          have hmem' := hmono' c hc
          rw [hs1w] at hmem'
          exact hgoneSub' c.id (hchild c hmem' hpar) c hc rfl
        simp [get_all_sub_chats, habsfin, hsubempty]
      · refine ⟨ev1 ++ evs, mdev ++ ev8, htr, ?_, hnoMa, ?_⟩
        · intro d hd
          refine hDev d hd ?_
          rw [hs1w]
          exact hDweav d hd
        · have hmm := (hcopt' cM rfl).1
          rw [hcMid] at hmm
          exact List.mem_append.2 (Or.inl hmm)

def c1ConvM : Conv := ⟨"M", "u", "Main", none, false⟩

def c1ConvS : Conv := ⟨"S", "u", "Sub", some "M", false⟩

/-- A main chat `M` with one registered sub chat `S` whose metadata
sits (fresh) in the distributed cache, as creation and a prior read
leave it. -/
def c1State : ChatState :=
  ⟨⟨[c1ConvM, c1ConvS], [], true⟩,
   [⟨hierarchyMainKey "M", some conversation_ttl, RVal.subList ["S"]⟩,
    ⟨hierarchySubKey "S", some conversation_ttl, RVal.backPtr ⟨"M", "u"⟩⟩,
    ⟨get_metadata_key "S", some metadata_ttl, RVal.metaVal ⟨"S", "u", "Sub", 0⟩⟩],
   [], 0⟩

/-- The result of deleting the main chat `M` in `c1State`. -/
def c1run : Bool × ChatState × List Event :=
  (delete_conversation 5 c1State "M").getD (false, c1State, [])

/-- C1 (counterexample): deleting the main chat `M` with descendant
set `{S}` completes and leaves `listDescendants(M)` empty, but the
descendant `S` is NOT unreadable in every tier: its hash-named
distributed-cache metadata key (`pgpt:` + truncated SHA-256 of
`meta:S`) contains neither `M` nor `S` nor the owner id as a
substring, so every purge pass misses it, and a subsequent
`get_conversation("S")` still returns a conversation. -/
theorem c1_counterexample :
    delete_conversation 5 c1State "M" = some (c1run.1, c1run.2.1, c1run.2.2) ∧
    c1run.1 = true ∧
    (get_all_sub_chats c1run.2.1 "M").1 = [] ∧
    ((get_conversation c1run.2.1 "S").1.map (fun c => c.id)) = some "S" := by
  refine ⟨by decide, by decide, by decide, by decide⟩

/-- C1 witness: the amended cascade theorem applied to the concrete
two-chat state `c1State`. -/
theorem c1_cascade_delete_witness :
    delete_conversation 5 c1State "M" = some (c1run.1, c1run.2.1, c1run.2.2) ∧
    (c1run.1 = true ∧
     (get_all_sub_chats c1run.2.1 "M").1 = [] ∧
     (∀ c ∈ c1run.2.1.weaviate.convs, c.id ≠ "M") ∧
     (∀ d ∈ ["S"], ∀ c ∈ c1run.2.1.weaviate.convs, c.id ≠ d) ∧
     (∃ tra trb, c1run.2.2 = tra ++ trb ∧
       (∀ d ∈ ["S"], Event.delConvRec d ∈ tra) ∧
       Event.delConvRec "M" ∉ tra ∧ Event.delConvRec "M" ∈ trb)) :=
  ⟨by decide,
   c1_cascade_delete "M" ["M", "S"] ["S"] 5 c1State c1run.1 c1run.2.1 c1run.2.2
     c1ConvM (by decide) (by decide) (by decide)
     (by
       intro m hm
       rw [(by decide : redisGet c1State.redis (get_metadata_key "M") = none)] at hm
       exact absurd hm (by simp))
     (by decide) (by decide) (by decide) (by decide)
     ⟨⟨by decide, by decide⟩, ⟨by decide, by decide⟩, by
       unfold CacheOK
       decide⟩
     (by
       unfold Hinj
       decide)⟩

end Ragzy
